import Mathlib

/-!
Verification of the contest-monitor proctoring engine.

Shallow embedding of the scoring and detection core:
* `suspicionCalculator` (event scorer, aggregate participant score),
* `GitHubAnalysis.recalculateSuspicion` (aggregate source-suspicion score),
* `commitAnalysis` (timing distribution, idle-burst detection),
* the `POST /api/events` ingest handler (participant counter updates,
  typing-pattern truncation),
* the winnowing fingerprint pipeline (`normalise`, `kgramHashes`, `winnow`,
  `fingerprint`, `jaccardSimilarity`, `compareCode`, `crossCompareRepos`),
* the cross-repository match persistence (`$push` + `$max` updates).

Numbers: the JS code computes with IEEE-754 doubles; scores here are modelled
with exact rationals (and reals where `Math.log10` occurs), which is the
standard exact-arithmetic reading of the formulas.  `Math.round(x)` is
`⌊x + 1/2⌋`.  32-bit and crypto hash functions (`simpleHash`, `sha256`) are
abstracted as parameters: `simpleHash`'s value is an IEEE-754 artefact of
`(hash * 0x01000193) >>> 0` (the 56-bit product is rounded to double
precision) and `sha256` is an external library call; every property proved
below holds for all choices of these functions.
-/

namespace ContestMonitor

/-- `Math.round(x * 1000) / 1000` — round to 3 decimals (exact rationals). -/
def round3 (q : ℚ) : ℚ := (⌊q * 1000 + 1/2⌋ : ℤ) / 1000

/-- `Math.round(x)` on rationals. -/
def jsRound (q : ℚ) : ℤ := ⌊q + 1/2⌋

/-- `Math.round(x * 1000) / 1000` on reals (used where `Math.log10` occurs). -/
noncomputable def round3R (x : ℝ) : ℝ := (⌊x * 1000 + 1/2⌋ : ℤ) / 1000

/-! ## Data model: participant counters (`participant.stats`) -/

/-- The aggregate counters of a `Participant` document (`stats` subdocument). -/
structure Stats where
  pasteCount : ℕ
  pasteCharsTotal : ℕ
  typingAnomalies : ℕ
  windowBlurCount : ℕ
  windowBlurTotalMs : ℕ
  clipboardChanges : ℕ
  filesCreated : ℕ
  filesDeleted : ℕ
  deriving Repr, DecidableEq

/-- Stats of a freshly created participant (all counters default to 0). -/
def initialStats : Stats := ⟨0, 0, 0, 0, 0, 0, 0, 0⟩

/-- `calculateParticipantSuspicion` (`utils/suspicionCalculator.js`): the
aggregate participant score recomputed from the counter state.
`Math.log10` is `Real.logb 10`. -/
noncomputable def calculateParticipantSuspicion (s : Stats) : ℝ :=
  let score : ℝ := 0
  let score := if s.pasteCount > 0 then
      score + min (Real.logb 10 ((s.pasteCount : ℝ) + 1) * 0.18) 0.5 else score
  let score := if s.pasteCharsTotal > 1000 then
      score + min ((s.pasteCharsTotal : ℝ) / 10000) 0.3 else score
  let score := if s.typingAnomalies > 5 then
      score + min ((s.typingAnomalies : ℝ) / 100) 0.2 else score
  let score := if s.windowBlurTotalMs > 600000 then score + 0.15 else score
  let score := if s.clipboardChanges > 20 then
      score + min ((s.clipboardChanges : ℝ) / 200) 0.15 else score
  min (round3R score) 1

/-- Spec-side formula for the participant score:
`min(0.5, 0.18·log10(pasteCount+1)) [when pasteCount > 0]
+ min(0.3, pasteCharsTotal/10000) [when > 1000]
+ min(0.2, typingAnomalies/100) [when > 5]
+ 0.15 [when windowBlurTotalMs > 600000]
+ min(0.15, clipboardChanges/200) [when > 20]`,
clamped to 1.0 and rounded to 3 decimals. -/
noncomputable def participantScoreSpec (s : Stats) : ℝ :=
  round3R (min
    ((if s.pasteCount > 0 then
        min 0.5 (0.18 * Real.logb 10 ((s.pasteCount : ℝ) + 1)) else 0)
      + (if s.pasteCharsTotal > 1000 then min 0.3 ((s.pasteCharsTotal : ℝ) / 10000) else 0)
      + (if s.typingAnomalies > 5 then min 0.2 ((s.typingAnomalies : ℝ) / 100) else 0)
      + (if s.windowBlurTotalMs > 600000 then (0.15 : ℝ) else 0)
      + (if s.clipboardChanges > 20 then min 0.15 ((s.clipboardChanges : ℝ) / 200) else 0)) 1)

/-! ## Ingest: per-event counter updates (`routes/events.js`, the
`switch (event.type)` block) -/

/-- The `data` payload of an incoming event, with the fields the counter
switch destructures.  `anomaly` models truthiness of `data.anomaly`;
`focused` is `some b` when the field is present; `unfocusedDurationMs = 0`
models an absent or zero (falsy) duration. -/
structure EventData where
  length : ℕ
  anomaly : Bool
  focused : Option Bool
  unfocusedDurationMs : ℕ
  operation : String
  deriving Repr, DecidableEq

/-- An incoming event as seen by the ingest switch. -/
structure IncomingEvent where
  type : String
  data : EventData
  deriving Repr, DecidableEq

/-- The `switch (event.type)` counter-update block of `POST /api/events`. -/
def applyEventToStats (s : Stats) (e : IncomingEvent) : Stats :=
  if e.type = "paste" then
    { s with pasteCount := s.pasteCount + 1,
             pasteCharsTotal := s.pasteCharsTotal + e.data.length }
  else if e.type = "typing" then
    if e.data.anomaly then { s with typingAnomalies := s.typingAnomalies + 1 } else s
  else if e.type = "window_blur" then
    let s1 := if e.data.focused = some false then
        { s with windowBlurCount := s.windowBlurCount + 1 } else s
    if e.data.unfocusedDurationMs ≠ 0 then
      { s1 with windowBlurTotalMs := s1.windowBlurTotalMs + e.data.unfocusedDurationMs }
    else s1
  else if e.type = "clipboard" then
    { s with clipboardChanges := s.clipboardChanges + 1 }
  else if e.type = "file_operation" then
    if e.data.operation = "create" then { s with filesCreated := s.filesCreated + 1 }
    else if e.data.operation = "delete" then { s with filesDeleted := s.filesDeleted + 1 }
    else s
  else s

/-- Folding a whole batch of events over the counters (the ingest loop). -/
def applyBatchToStats (s : Stats) (events : List IncomingEvent) : Stats :=
  events.foldl applyEventToStats s

/-! ## Typing-pattern truncation (`routes/events.js`, step 4) -/

/-- `patternDoc.intervals.push(...intervals)` followed by
`if (length > 10000) intervals = intervals.slice(-8000)`. -/
def updateTypingIntervals (old batch : List ℚ) : List ℚ :=
  let appended := old ++ batch
  if appended.length > 10000 then appended.drop (appended.length - 8000) else appended

/-! ## Commit timing analysis (`utils/commitAnalysis.js`) -/

/-- One idle-burst episode (`idleBurstSchema` in `models/GitHubAnalysis.js`). -/
structure IdleBurst where
  idleStartedAt : ℤ
  burstStartedAt : ℤ
  idleDurationMin : ℤ
  burstCommitCount : ℕ
  deriving Repr, DecidableEq

/-- A commit record as assembled by `monitorRepository` (timestamps in
Unix milliseconds). -/
structure Commit where
  sha : String
  message : String
  date : ℤ
  additions : ℕ
  deletions : ℕ
  filesChanged : ℕ
  deriving Repr, DecidableEq

/-- `BURST_INTERVAL_MS = 5 * 60 * 1000`. -/
def BURST_INTERVAL_MS : ℤ := 300000

/-- `LONG_IDLE_MS = 30 * 60 * 1000`. -/
def LONG_IDLE_MS : ℤ := 1800000

/-- `new Date(t).getUTCHours()` for a millisecond timestamp. -/
def jsUTCHour (t : ℤ) : ℕ := ((t.ediv 3600000).emod 24).toNat

/-- Increment bucket `h` of the hourly histogram. -/
def bumpHour (hist : List ℕ) (h : ℕ) : List ℕ := hist.set h (hist.getD h 0 + 1)

/-- Result of `analyzeTimingDistribution`. -/
structure TimingAnalysis where
  hourlyDistribution : List ℕ
  idleBursts : List IdleBurst
  totalGapMs : ℤ
  deriving Repr, DecidableEq

/-- The look-ahead loop of the idle-burst detector: starting after the
gap-ending commit, count consecutive commits whose gap to their predecessor
is `< BURST_INTERVAL_MS`; stop at the first gap `≥ BURST_INTERVAL_MS`. -/
def lookAhead : ℤ → List ℤ → ℕ
  | _, [] => 0
  | prevDate, d :: rest =>
      if d - prevDate < BURST_INTERVAL_MS then 1 + lookAhead d rest else 0

/-- The idle-burst scan of `analyzeTimingDistribution`: for each commit
whose gap to its predecessor exceeds `LONG_IDLE_MS`, a `burstCount` is
initialised to 1 (the gap-ending commit itself), incremented by the
look-ahead, and an episode is recorded when `burstCount ≥ 3`. -/
def idleGo : Commit → List Commit → List IdleBurst
  | _, [] => []
  | prev, c :: rest =>
      let gap := c.date - prev.date
      if gap > LONG_IDLE_MS then
        let burstCount := 1 + lookAhead c.date (rest.map (·.date))
        if burstCount ≥ 3 then
          ⟨prev.date, c.date, jsRound ((gap : ℚ) / 60000), burstCount⟩ :: idleGo c rest
        else idleGo c rest
      else idleGo c rest

/-- Idle-burst episodes of a chronologically ordered commit list. -/
def idleBurstsOf : List Commit → List IdleBurst
  | [] => []
  | c :: rest => idleGo c rest

/-- Sum of the inter-commit gaps. -/
def gapGo : Commit → List Commit → ℤ
  | _, [] => 0
  | prev, c :: rest => (c.date - prev.date) + gapGo c rest

/-- `totalGapMs` accumulated over the commit list. -/
def totalGapOf : List Commit → ℤ
  | [] => 0
  | c :: rest => gapGo c rest

/-- `analyzeTimingDistribution` (`utils/commitAnalysis.js`): hour-of-day
histogram, idle-burst episodes, and total gap time. -/
def analyzeTimingDistribution (commits : List Commit) : TimingAnalysis :=
  { hourlyDistribution :=
      commits.foldl (fun h c => bumpHour h (jsUTCHour c.date)) (List.replicate 24 0)
    idleBursts := idleBurstsOf commits
    totalGapMs := totalGapOf commits }

/-- Modelled from claim C4's wording: an episode would require a
*subsequent* run of at least 3 commits each within 5 minutes of its
predecessor, and would record the run length itself as
`burstCommitCount`. -/
def claimIdleGo : Commit → List Commit → List IdleBurst
  | _, [] => []
  | prev, c :: rest =>
      let gap := c.date - prev.date
      if gap > LONG_IDLE_MS then
        let run := lookAhead c.date (rest.map (·.date))
        if run ≥ 3 then
          ⟨prev.date, c.date, jsRound ((gap : ℚ) / 60000), run⟩ :: claimIdleGo c rest
        else claimIdleGo c rest
      else claimIdleGo c rest

/-- Claim C4's reading of the idle-burst rule, applied to a commit list. -/
def claimC4IdleBursts : List Commit → List IdleBurst
  | [] => []
  | c :: rest => claimIdleGo c rest

/-- All splits of a list into (predecessor, current element, tail). -/
def adjSplits {α : Type} : List α → List (α × α × List α)
  | [] => []
  | [_] => []
  | a :: b :: rest => (a, b, rest) :: adjSplits (b :: rest)

/-- The list of consecutive differences of a timestamp list. -/
def consecutiveGaps (l : List ℤ) : List ℤ := l.zipWith (fun a b => b - a) l.tail

/-- Declarative statement of what the code's idle-burst scan emits: for
every adjacent pair with gap `> 30 min`, let `run` be the length of the
maximal following chain of commits each `< 5 min` after its predecessor;
an episode is emitted iff `run + 1 ≥ 3` (the gap-ending commit counts),
carrying the gap-ending commit as burst start and `run + 1` as
`burstCommitCount`. -/
def idleBurstsAmendedSpec (commits : List Commit) : List IdleBurst :=
  (adjSplits commits).filterMap fun x =>
    let gap := x.2.1.date - x.1.date
    let run := ((consecutiveGaps (x.2.1.date :: x.2.2.map (·.date))).takeWhile
        (fun g => decide (g < BURST_INTERVAL_MS))).length
    if gap > LONG_IDLE_MS ∧ run + 1 ≥ 3 then
      some ⟨x.1.date, x.2.1.date, jsRound ((gap : ℚ) / 60000), run + 1⟩
    else none

/-- Four commits at minutes 0, 31, 32, 33: a 31-minute gap followed by a
run of two rapid commits. -/
def c4Commits : List Commit :=
  [⟨"c0", "m", 0, 0, 0, 0⟩, ⟨"c1", "m", 1860000, 0, 0, 0⟩,
   ⟨"c2", "m", 1920000, 0, 0, 0⟩, ⟨"c3", "m", 1980000, 0, 0, 0⟩]

/-! ## Source-analysis record (`models/GitHubAnalysis.js`) -/

/-- One cross-repo similarity match (`similarityMatchSchema`). -/
structure SimilarityMatch where
  otherRepo : String
  file1 : String
  file2 : String
  similarity : ℚ
  identicalContent : Bool
  deriving Repr, DecidableEq

/-- The fields of a `GitHubAnalysis` document that the suspicion
recalculation and the match persistence read or write. -/
structure AnalysisDoc where
  avgCommitSuspicionScore : ℚ
  idleBursts : List IdleBurst
  similarityMatches : List SimilarityMatch
  highestSimilarity : ℚ
  deriving Repr, DecidableEq

/-- A freshly created analysis record (`new GitHubAnalysis(...)`: schema
defaults `avgCommitSuspicionScore = 0`, empty lists, `highestSimilarity = 0`). -/
def initialAnalysis : AnalysisDoc := ⟨0, [], [], 0⟩

/-- `githubAnalysisSchema.methods.recalculateSuspicion`: the aggregate
source-suspicion score computed from the record's sub-signals. -/
def recalculateSuspicion (a : AnalysisDoc) : ℚ :=
  let score : ℚ := 0
  let score := if a.avgCommitSuspicionScore > 0 then
      score + a.avgCommitSuspicionScore * 0.35 else score
  let burstCount := a.idleBursts.length
  let score := if burstCount > 0 then score + min ((burstCount : ℚ) * 0.1) 0.25 else score
  let score := if a.highestSimilarity > 0.8 then score + 0.4
    else if a.highestSimilarity > 0.5 then score + a.highestSimilarity * 0.3
    else score
  min (round3 score) 1

/-- Spec-side formula for the source-suspicion score:
`0.35·avgCommitScore + min(0.25, 0.1·|idleBursts|) + plagiarismContribution`,
the sum clamped to 1.0 and rounded to 3 decimals, with
`plagiarismContribution = 0.4` if `highestSimilarity > 0.8`, else
`0.3·highestSimilarity` if `> 0.5`, else 0. -/
def githubScoreSpec (a : AnalysisDoc) : ℚ :=
  let plagiarismContribution : ℚ :=
    if a.highestSimilarity > 0.8 then 0.4
    else if a.highestSimilarity > 0.5 then 0.3 * a.highestSimilarity
    else 0
  round3 (min (0.35 * a.avgCommitSuspicionScore
      + min 0.25 (0.1 * (a.idleBursts.length : ℚ))
      + plagiarismContribution) 1)

/-! ## Match persistence (`runCrossComparison` in the cron job and
`compareRepositories` in the route module) -/

/-- Operations the sync pipeline performs on one analysis document.
`pushMatch` is the `findOneAndUpdate` with `$push: {similarityMatches}` and
`$max: {highestSimilarity}`; `mergeCommitAnalysis` is the commit-monitoring
merge in `monitorRepository`, which rewrites the commit-side fields but never
touches the similarity fields. -/
inductive SyncOp where
  | pushMatch (m : SimilarityMatch)
  | mergeCommitAnalysis (avg : ℚ) (bursts : List IdleBurst)
  deriving Repr, DecidableEq

/-- Effect of one sync operation on an analysis document. -/
def applyOp (a : AnalysisDoc) : SyncOp → AnalysisDoc
  | .pushMatch m =>
      { a with similarityMatches := a.similarityMatches ++ [m],
               highestSimilarity := max a.highestSimilarity m.similarity }
  | .mergeCommitAnalysis avg bursts =>
      { a with avgCommitSuspicionScore := avg, idleBursts := bursts }

/-- The document reached from a fresh record by a sequence of sync
operations. -/
def runOps (ops : List SyncOp) : AnalysisDoc := ops.foldl applyOp initialAnalysis

/-- `max(similarityMatches.similarity ∪ ⟨0⟩)` — the maximum of the recorded
match similarities, 0 when there are none. -/
def maxSimilarity (ms : List SimilarityMatch) : ℚ :=
  (ms.map (·.similarity)).foldl max 0

/-! ## Winnowing fingerprint pipeline (`utils/similarity.js`) -/

/-- JS line terminators: `.` excludes these and a multiline `$` matches
before them. -/
def isLineTerm (c : Char) : Bool :=
  decide (c = '\n' ∨ c = '\r' ∨ c = '\u2028' ∨ c = '\u2029')

/-- The JS `\s` class (whitespace collapsed by `replace(/\s+/g, " ")` and
stripped by `trim()`). -/
def isJsWs (c : Char) : Bool :=
  decide (c = ' ' ∨ c = '\t' ∨ c = '\n' ∨ c = '\x0b' ∨ c = '\x0c' ∨ c = '\r'
    ∨ c = '\u00a0' ∨ c = '\u1680' ∨ ('\u2000' ≤ c ∧ c ≤ '\u200a')
    ∨ c = '\u2028' ∨ c = '\u2029' ∨ c = '\u202f' ∨ c = '\u205f'
    ∨ c = '\u3000' ∨ c = '\ufeff')

/-- `replace(/\/\/.*$/gm, "")`: normal scanning (`false`) switches to
skip-to-end-of-line (`true`) on `//`; the line terminator itself is kept. -/
def slashGo : Bool → List Char → List Char
  | _, [] => []
  | true, c :: rest => if isLineTerm c then c :: slashGo false rest else slashGo true rest
  | false, '/' :: '/' :: rest => slashGo true rest
  | false, c :: rest => c :: slashGo false rest

/-- Strip `//…` line comments. -/
def stripSlashes (l : List Char) : List Char := slashGo false l

/-- `replace(/\/\*[\s\S]*?\*\//g, "")`: on `/*`, buffer the scanned text
(reversed, in `some acc`) up to the nearest `*/` (the lazy match) and drop
the whole block; a block left unclosed at end of input is not a match and
is emitted verbatim. -/
def blockGo : Option (List Char) → List Char → List Char
  | none, '/' :: '*' :: rest => blockGo (some ['*', '/']) rest
  | none, c :: rest => c :: blockGo none rest
  | none, [] => []
  | some _, '*' :: '/' :: rest => blockGo none rest
  | some acc, c :: rest => blockGo (some (c :: acc)) rest
  | some acc, [] => acc.reverse

/-- Strip complete `/*…*/` block comments. -/
def stripBlocks (l : List Char) : List Char := blockGo none l

/-- `replace(/#.*$/gm, "")`. -/
def hashGo : Bool → List Char → List Char
  | _, [] => []
  | true, c :: rest => if isLineTerm c then c :: hashGo false rest else hashGo true rest
  | false, '#' :: rest => hashGo true rest
  | false, c :: rest => c :: hashGo false rest

/-- Strip `#…` line comments. -/
def stripHashes (l : List Char) : List Char := hashGo false l

/-- `replace(/\s+/g, " ")`: the flag records whether we are inside a
whitespace run whose single `' '` has already been emitted. -/
def collapseGo : Bool → List Char → List Char
  | _, [] => []
  | inRun, c :: rest =>
      if isJsWs c then
        if inRun then collapseGo true rest else ' ' :: collapseGo true rest
      else c :: collapseGo false rest

/-- Collapse every whitespace run to a single space. -/
def collapseWs (l : List Char) : List Char := collapseGo false l

/-- `toLowerCase()` on the ASCII range (the sources are ASCII; every claim
here is independent of the non-ASCII simple case mappings). -/
def asciiToLower (c : Char) : Char :=
  if 'A' ≤ c ∧ c ≤ 'Z' then Char.ofNat (c.toNat + 32) else c

/-- `trim()`: drop `\s` from both ends. -/
def jsTrim (l : List Char) : List Char :=
  ((l.dropWhile isJsWs).reverse.dropWhile isJsWs).reverse

/-- `normalise` (`utils/similarity.js`): strip `//…`, strip `/*…*/`, strip
`#…`, collapse whitespace runs to single spaces, lowercase, trim — in that
order. -/
def normalise (code : List Char) : List Char :=
  jsTrim ((collapseWs (stripHashes (stripBlocks (stripSlashes code)))).map asciiToLower)

/-- `DEFAULT_K = 25` (k-gram size in characters). -/
def DEFAULT_K : ℕ := 25

/-- `DEFAULT_W = 4` (winnowing window size). -/
def DEFAULT_W : ℕ := 4

/-- `kgramHashes`: text shorter than `k` is hashed once as a whole,
otherwise one hash per sliding window of `k` characters
(`text.slice(i, i + k)` for `0 ≤ i ≤ len − k`).  The k-gram hash
(`simpleHash`) is a parameter, see the module docstring. -/
def kgramHashes (hashF : List Char → ℕ) (text : List Char) (k : ℕ) : List ℕ :=
  if text.length < k then [hashF text]
  else (List.range (text.length - k + 1)).map fun i => hashF ((text.drop i).take k)

/-- The inner minimum loop of `winnow` (`minVal` over one window,
initialised with `window[0]`). -/
def windowMin : List ℕ → ℕ
  | [] => 0
  | a :: rest => rest.foldl min a

/-- The dedup-and-emit loop of `winnow`: add each window minimum that
differs from `prevMin`, which starts at `-1`. -/
def emitDedup : List ℕ → ℤ → Finset ℕ
  | [], _ => ∅
  | m :: rest, prev =>
      if (m : ℤ) ≠ prev then insert m (emitDedup rest m) else emitDedup rest prev

/-- `winnow`: a hash list no longer than `w` contributes its overall
minimum; otherwise slide a window of size `w` and emit deduplicated window
minima. -/
def winnow (hashes : List ℕ) (w : ℕ) : Finset ℕ :=
  match hashes with
  | [] => ∅
  | h :: t =>
      if (h :: t).length ≤ w then {t.foldl min h}
      else emitDedup ((List.range ((h :: t).length - w + 1)).map
          fun i => windowMin (((h :: t).drop i).take w)) (-1)

/-- A code fingerprint: winnowed fingerprint set, content digest of the
normalised text, normalised length.  `sha` abstracts `crypto`'s SHA-256
hex digest (an external library call). -/
structure Fingerprint where
  fingerprints : Finset ℕ
  hash : String
  normLength : ℕ
  deriving DecidableEq

/-- `fingerprint(code)` with the default `k = 25`, `w = 4`. -/
def fingerprint (hashF : List Char → ℕ) (sha : List Char → String)
    (code : List Char) : Fingerprint :=
  let norm := normalise code
  { fingerprints := winnow (kgramHashes hashF norm DEFAULT_K) DEFAULT_W
    hash := sha norm
    normLength := norm.length }

/-- `jaccardSimilarity`: both sets empty ⇒ 1; exactly one empty ⇒ 0;
otherwise `|A ∩ B| / |A ∪ B|` (the union size computed as
`size A + size B − |A ∩ B|`, guarded against 0). -/
def jaccardSimilarity (a b : Finset ℕ) : ℚ :=
  if a.card = 0 ∧ b.card = 0 then 1
  else if a.card = 0 ∨ b.card = 0 then 0
  else
    let inter := (a ∩ b).card
    let union := a.card + b.card - inter
    if union = 0 then 0 else (inter : ℚ) / (union : ℚ)

/-- Result record of `compareCode`. -/
structure CompareResult where
  similarity : ℚ
  hash1 : String
  hash2 : String
  identicalContent : Bool
  deriving DecidableEq

/-- `compareCode`: digest equality short-circuits to similarity 1.0,
otherwise the Jaccard similarity rounded to 3 decimals. -/
def compareCode (hashF : List Char → ℕ) (sha : List Char → String)
    (code1 code2 : List Char) : CompareResult :=
  let fp1 := fingerprint hashF sha code1
  let fp2 := fingerprint hashF sha code2
  let identicalContent : Bool := fp1.hash = fp2.hash
  { similarity := if identicalContent then 1
      else round3 (jaccardSimilarity fp1.fingerprints fp2.fingerprints)
    hash1 := fp1.hash
    hash2 := fp2.hash
    identicalContent := identicalContent }

/-! ## Cross-repository scan (`crossCompareRepos`) -/

/-- One repository's eligible files: `(path, content)` pairs. -/
structure RepoFiles where
  repoId : String
  files : List (List Char × List Char)

/-- One emitted cross-repo match. -/
structure Flag where
  repo1 : String
  repo2 : String
  file1 : List Char
  file2 : List Char
  similarity : ℚ
  identicalContent : Bool
  deriving DecidableEq

/-- JS `Map.set`: replace in place when the key is present (keeping its
insertion position), else append. -/
def mapSet {κ β : Type} [DecidableEq κ] (m : List (κ × β)) (k : κ) (v : β) :
    List (κ × β) :=
  if m.any (fun p => p.1 = k) then m.map (fun p => if p.1 = k then (k, v) else p)
  else m ++ [(k, v)]

/-- The per-repo `fpMap`: path → fingerprint. -/
def buildFileMap (hashF : List Char → ℕ) (sha : List Char → String)
    (files : List (List Char × List Char)) : List (List Char × Fingerprint) :=
  files.foldl (fun m f => mapSet m f.1 (fingerprint hashF sha f.2)) []

/-- The `index` map: repoId → fpMap. -/
def buildRepoIndex (hashF : List Char → ℕ) (sha : List Char → String)
    (repos : List RepoFiles) : List (String × List (List Char × Fingerprint)) :=
  repos.foldl (fun idx r => mapSet idx r.repoId (buildFileMap hashF sha r.files)) []

/-- All index pairs `(i, j)` with `i < j` in iteration order. -/
def pairsAfter {α : Type} : List α → List (α × α)
  | [] => []
  | a :: rest => rest.map (fun b => (a, b)) ++ pairsAfter rest

/-- JS `path.split(".")` on character lists. -/
def splitDotAux (acc : List Char) : List Char → List (List Char)
  | [] => [acc.reverse]
  | '.' :: rest => acc.reverse :: splitDotAux [] rest
  | c :: rest => splitDotAux (c :: acc) rest

/-- `path.split(".").pop()` — the last `.`-separated segment, compared
verbatim by the code. -/
def extOf (path : List Char) : List Char := (splitDotAux [] path).getLastD []

/-- Modelled from claim C6's wording: the last `.`-separated segment,
lowercased before comparison. -/
def extOfLC (path : List Char) : List Char := (extOf path).map asciiToLower

/-- The nested comparison loops of `crossCompareRepos`: for every repo pair
`(i, j)` with `i < j` and every file pair, skip unless the extensions are
equal, then emit a flag when the Jaccard similarity reaches the
threshold. -/
def rawFlags (hashF : List Char → ℕ) (sha : List Char → String)
    (repos : List RepoFiles) (θ : ℚ) : List Flag :=
  (pairsAfter (buildRepoIndex hashF sha repos)).flatMap fun pr =>
    pr.1.2.flatMap fun fA =>
      pr.2.2.filterMap fun fB =>
        if extOf fA.1 = extOf fB.1 then
          if jaccardSimilarity fA.2.fingerprints fB.2.fingerprints ≥ θ then
            some { repo1 := pr.1.1, repo2 := pr.2.1, file1 := fA.1, file2 := fB.1,
                   similarity :=
                     round3 (jaccardSimilarity fA.2.fingerprints fB.2.fingerprints),
                   identicalContent := fA.2.hash = fB.2.hash }
          else none
        else none

/-- `flags.sort((a, b) => b.similarity - a.similarity)`: stable sort by
similarity descending. -/
def sortFlags (fs : List Flag) : List Flag :=
  fs.mergeSort fun f g => g.similarity ≤ f.similarity

/-- `crossCompareRepos(repos, threshold)`. -/
def crossCompareRepos (hashF : List Char → ℕ) (sha : List Char → String)
    (repos : List RepoFiles) (θ : ℚ) : List Flag :=
  sortFlags (rawFlags hashF sha repos θ)

/-- Modelled from claim C6's wording: the same scan, but with the
extensions lowercased before comparison. -/
def rawFlagsLC (hashF : List Char → ℕ) (sha : List Char → String)
    (repos : List RepoFiles) (θ : ℚ) : List Flag :=
  (pairsAfter (buildRepoIndex hashF sha repos)).flatMap fun pr =>
    pr.1.2.flatMap fun fA =>
      pr.2.2.filterMap fun fB =>
        if extOfLC fA.1 = extOfLC fB.1 then
          if jaccardSimilarity fA.2.fingerprints fB.2.fingerprints ≥ θ then
            some { repo1 := pr.1.1, repo2 := pr.2.1, file1 := fA.1, file2 := fB.1,
                   similarity :=
                     round3 (jaccardSimilarity fA.2.fingerprints fB.2.fingerprints),
                   identicalContent := fA.2.hash = fB.2.hash }
          else none
        else none

/-- The claim's variant of `crossCompareRepos` (lowercased extensions). -/
def crossCompareReposLC (hashF : List Char → ℕ) (sha : List Char → String)
    (repos : List RepoFiles) (θ : ℚ) : List Flag :=
  sortFlags (rawFlagsLC hashF sha repos θ)

/-- Two single-file repositories with byte-identical contents whose paths
differ only in extension case. -/
def c6Repos : List RepoFiles :=
  [⟨"alice/solution", [("A.JS".data, "abc".data)]⟩,
   ⟨"bob/solution", [("b.js".data, "abc".data)]⟩]

/-- Adjacent two-character pattern test: does `p` immediately followed by
`q` occur in the list? -/
def pairIn (p q : Char) : List Char → Bool
  | [] => false
  | [_] => false
  | a :: b :: rest => (decide (a = p) && decide (b = q)) || pairIn p q (b :: rest)

/-- Is there a `/*` opener with a later, disjoint `*/` close — exactly the
condition under which the block-comment regex finds a match. -/
def badBlock : List Char → Bool
  | [] => false
  | [_] => false
  | a :: b :: rest =>
      if a = '/' ∧ b = '*' then pairIn '*' '/' rest || badBlock rest
      else badBlock (b :: rest)

/-- The text conceptually pending in a `blockGo` state: nothing in normal
scanning, the buffered (reversed) text inside a potential block comment. -/
def stateText : Option (List Char) → List Char
  | none => []
  | some acc => acc.reverse

/-- A placeholder k-gram hash used to instantiate the hash parameter at
concrete inputs. -/
def zeroHash : List Char → ℕ := fun _ => 0

/-- A placeholder digest function used to instantiate the `sha` parameter
at concrete inputs. -/
def emptySha : List Char → String := fun _ => ""

end ContestMonitor

namespace ContestMonitor

/-! # Theorems -/

/-! ## Round-then-clamp versus clamp-then-round -/

theorem round3_min_one (q : ℚ) : min (round3 q) 1 = round3 (min q 1) := by
  rcases le_or_lt 1 q with h | h
  · have h1 : min q 1 = 1 := min_eq_right h
    have h2 : round3 (1 : ℚ) = 1 := by norm_num [round3]
    have h3 : (1000 : ℚ) ≤ ⌊q * 1000 + 1/2⌋ := by
      have : ((1000 : ℤ) : ℚ) ≤ q * 1000 + 1/2 := by push_cast; nlinarith
      exact_mod_cast Int.le_floor.mpr this
    have h4 : (1 : ℚ) ≤ round3 q := by
      rw [round3]
      rw [le_div_iff₀ (by norm_num : (0:ℚ) < 1000)]
      exact_mod_cast h3
    rw [h1, h2, min_eq_right h4]
  · have h1 : min q 1 = q := min_eq_left h.le
    have h3 : ⌊q * 1000 + 1/2⌋ ≤ 1000 := by
      have hle : q * 1000 + 1/2 ≤ 1000 + 1/2 := by nlinarith
      have := Int.floor_le_floor hle
      have h5 : ⌊(1000 : ℚ) + 1/2⌋ = 1000 := by norm_num
      omega
    have h4 : round3 q ≤ 1 := by
      rw [round3, div_le_one (by norm_num : (0:ℚ) < 1000)]
      exact_mod_cast h3
    rw [h1, min_eq_left h4]

theorem round3R_min_one (x : ℝ) : min (round3R x) 1 = round3R (min x 1) := by
  rcases le_or_lt 1 x with h | h
  · have h1 : min x 1 = 1 := min_eq_right h
    have h2 : round3R (1 : ℝ) = 1 := by norm_num [round3R]
    have h3 : (1000 : ℤ) ≤ ⌊x * 1000 + 1/2⌋ := by
      apply Int.le_floor.mpr
      push_cast
      nlinarith
    have h4 : (1 : ℝ) ≤ round3R x := by
      rw [round3R, le_div_iff₀ (by norm_num : (0:ℝ) < 1000)]
      exact_mod_cast h3
    rw [h1, h2, min_eq_right h4]
  · have h1 : min x 1 = x := min_eq_left h.le
    have h3 : ⌊x * 1000 + 1/2⌋ ≤ 1000 := by
      have hle : x * 1000 + 1/2 ≤ 1000 + 1/2 := by nlinarith
      have := Int.floor_le_floor hle
      have h5 : ⌊(1000 : ℝ) + 1/2⌋ = 1000 := by norm_num
      omega
    have h4 : round3R x ≤ 1 := by
      rw [round3R, div_le_one (by norm_num : (0:ℝ) < 1000)]
      exact_mod_cast h3
    rw [h1, min_eq_left h4]

/-! ## C3 — aggregate participant score -/

theorem log_ten_pos : (0:ℝ) < Real.log 10 := Real.log_pos (by norm_num)

/-- `log10 2 > 0.3`, from `2^10 = 1024 > 1000 = 10^3`. -/
theorem logb_ten_two_gt : (3:ℝ)/10 < Real.logb 10 2 := by
  rw [← Real.log_div_log]
  rw [lt_div_iff₀ log_ten_pos]
  have h1 : Real.log ((10:ℝ)^(3:ℕ)) < Real.log ((2:ℝ)^(10:ℕ)) :=
    Real.log_lt_log (by positivity) (by norm_num)
  rw [Real.log_pow, Real.log_pow] at h1
  push_cast at h1
  linarith

/-- `log10 2 < 109/360`, from `2^360 < 10^109`. -/
theorem logb_ten_two_lt : Real.logb 10 2 < 109/360 := by
  rw [← Real.log_div_log]
  rw [div_lt_iff₀ log_ten_pos]
  have hpow : (2:ℝ)^(360:ℕ) < (10:ℝ)^(109:ℕ) := by
    have : (2:ℕ)^360 < 10^109 := by norm_num
    exact_mod_cast this
  have h1 : Real.log ((2:ℝ)^(360:ℕ)) < Real.log ((10:ℝ)^(109:ℕ)) :=
    Real.log_lt_log (by positivity) hpow
  rw [Real.log_pow, Real.log_pow] at h1
  push_cast at h1
  linarith

/-- Claim C3: the aggregate participant suspicion score equals the spec's
guarded-sum formula (clamped to 1.0, rounded to 3 decimals), and at
`pasteCount = 1` with every other counter below its guard the score is
`0.054 = round(0.18·log10 2, 3)`. -/
theorem c3_participant_score_formula :
    (∀ s : Stats, calculateParticipantSuspicion s = participantScoreSpec s)
      ∧ calculateParticipantSuspicion ⟨1, 600, 0, 0, 0, 0, 0, 0⟩ = 0.054 := by
  have e1 : ∀ x : ℝ, min (x * 0.18) 0.5 = min 0.5 (0.18 * x) := fun x => by
    rw [mul_comm]; exact min_comm _ _
  constructor
  · intro s
    simp only [calculateParticipantSuspicion, participantScoreSpec, e1,
      min_comm ((s.pasteCharsTotal : ℝ) / 10000) (0.3 : ℝ),
      min_comm ((s.typingAnomalies : ℝ) / 100) (0.2 : ℝ),
      min_comm ((s.clipboardChanges : ℝ) / 200) (0.15 : ℝ)]
    rw [round3R_min_one]
    congr 2
    split_ifs <;> ring
  · have hlb := logb_ten_two_gt
    have hub := logb_ten_two_lt
    have hmin : min (Real.logb 10 2 * 0.18) 0.5 = Real.logb 10 2 * 0.18 :=
      min_eq_left (by nlinarith)
    have hfloor : ⌊Real.logb 10 2 * 0.18 * 1000 + 1/2⌋ = (54 : ℤ) := by
      rw [Int.floor_eq_iff]
      constructor <;> push_cast <;> nlinarith
    simp only [calculateParticipantSuspicion]
    rw [if_pos (show (1:ℕ) > 0 by norm_num),
        if_neg (show ¬(600:ℕ) > 1000 by norm_num),
        if_neg (show ¬(0:ℕ) > 5 by norm_num),
        if_neg (show ¬(0:ℕ) > 600000 by norm_num),
        if_neg (show ¬(0:ℕ) > 20 by norm_num),
        show ((1:ℕ):ℝ) + 1 = 2 by norm_num,
        zero_add, hmin, round3R, hfloor]
    norm_num

/-! ## C1 — aggregate source-suspicion score -/

/-- Claim C1: for every source-analysis record, the aggregate source
suspicion score equals `0.35·avgCommitScore + min(0.25, 0.1·|idleBursts|)
+ plagiarismContribution` (0.4 when `highestSimilarity > 0.8`, else
`0.3·highestSimilarity` when `> 0.5`, else 0), the sum clamped to 1.0 and
rounded to 3 decimals.  The schema constrains `avgCommitSuspicionScore`
to `[0, 1]`, whence the nonnegativity hypothesis. -/
theorem c1_github_score_formula (a : AnalysisDoc)
    (h : 0 ≤ a.avgCommitSuspicionScore) :
    recalculateSuspicion a = githubScoreSpec a := by
  have plag_eq : ∀ s : ℚ, (if a.highestSimilarity > 0.8 then s + 0.4
      else if a.highestSimilarity > 0.5 then s + a.highestSimilarity * 0.3 else s)
      = s + (if a.highestSimilarity > 0.8 then (0.4 : ℚ)
             else if a.highestSimilarity > 0.5 then 0.3 * a.highestSimilarity
             else 0) := by
    intro s; split_ifs <;> ring
  have min_swap : min ((a.idleBursts.length : ℚ) * 0.1) 0.25
      = min 0.25 (0.1 * (a.idleBursts.length : ℚ)) := by
    rw [mul_comm]; exact min_comm _ _
  have score_eq :
      (if a.idleBursts.length > 0 then
          (if a.avgCommitSuspicionScore > 0 then
              (0:ℚ) + a.avgCommitSuspicionScore * 0.35 else 0)
            + min ((a.idleBursts.length : ℚ) * 0.1) 0.25
        else (if a.avgCommitSuspicionScore > 0 then
            (0:ℚ) + a.avgCommitSuspicionScore * 0.35 else 0))
      = 0.35 * a.avgCommitSuspicionScore
          + min 0.25 (0.1 * (a.idleBursts.length : ℚ)) := by
    split_ifs with hB hA hA
    · rw [min_swap]; ring
    · rw [min_swap, le_antisymm (not_lt.mp hA) h]; ring
    · have hb : a.idleBursts.length = 0 := by omega
      rw [hb]; push_cast; norm_num; ring
    · have hb : a.idleBursts.length = 0 := by omega
      rw [hb, le_antisymm (not_lt.mp hA) h]; push_cast; norm_num
  simp only [recalculateSuspicion, githubScoreSpec]
  rw [round3_min_one, plag_eq, score_eq]

/-- Witness for C1 at a concrete record. -/
theorem c1_github_score_formula_witness :
    (0 : ℚ) ≤ (⟨1/2, [⟨0, 1860000, 31, 3⟩], [], 9/10⟩ : AnalysisDoc).avgCommitSuspicionScore
      ∧ recalculateSuspicion ⟨1/2, [⟨0, 1860000, 31, 3⟩], [], 9/10⟩
          = githubScoreSpec ⟨1/2, [⟨0, 1860000, 31, 3⟩], [], 9/10⟩ :=
  ⟨by norm_num, c1_github_score_formula _ (by norm_num)⟩

/-! ## C2 — the similarity-0.80 boundary of the plagiarism contribution -/

/-- Counterexample to claim C2: with `highestSimilarity` exactly `0.80`
(and the other signals zero) the recomputed score is `0.24 = 0.3·0.80`, not
the claimed full `+0.4` contribution — the code's test is strict
(`> 0.8`). -/
theorem c2_boundary_counterexample :
    recalculateSuspicion ⟨0, [], [], 8/10⟩ = 6/25
      ∧ recalculateSuspicion ⟨0, [], [], 8/10⟩ ≠ 2/5 := by
  have : recalculateSuspicion ⟨0, [], [], 8/10⟩ = 6/25 := by
    norm_num [recalculateSuspicion, round3]
  exact ⟨this, by rw [this]; norm_num⟩

/-- Amended C2: at `highestSimilarity = 0.80` the plagiarism contribution is
`0.3·0.80` (score 0.24); the `+0.4` contribution requires
`highestSimilarity` strictly greater than 0.8; at `0.79` the contribution is
`0.3·0.79`. -/
theorem c2_boundary_amended :
    recalculateSuspicion ⟨0, [], [], 8/10⟩ = round3 (0.3 * (8/10))
      ∧ recalculateSuspicion ⟨0, [], [], 79/100⟩ = round3 (0.3 * (79/100))
      ∧ ∀ hs : ℚ, 8/10 < hs → recalculateSuspicion ⟨0, [], [], hs⟩ = 2/5 := by
  refine ⟨by norm_num [recalculateSuspicion, round3], by norm_num [recalculateSuspicion, round3], ?_⟩
  intro hs hhs
  have h08 : hs > (0.8 : ℚ) := by
    rw [show (0.8 : ℚ) = 8/10 by norm_num]; exact hhs
  simp only [recalculateSuspicion, h08]
  norm_num [round3]

/-- Witness for the amended C2 at `highestSimilarity = 0.9`. -/
theorem c2_boundary_amended_witness :
    (8 : ℚ)/10 < 9/10 ∧ recalculateSuspicion ⟨0, [], [], 9/10⟩ = 2/5 :=
  ⟨by norm_num, c2_boundary_amended.2.2 (9/10) (by norm_num)⟩

/-! ## C4 — idle-burst detection -/

theorem consecutiveGaps_cons (d e : ℤ) (l : List ℤ) :
    consecutiveGaps (d :: e :: l) = (e - d) :: consecutiveGaps (e :: l) := by
  simp [consecutiveGaps]

theorem lookAhead_eq_takeWhile (l : List ℤ) : ∀ d : ℤ,
    lookAhead d l = ((consecutiveGaps (d :: l)).takeWhile
        (fun g => decide (g < BURST_INTERVAL_MS))).length := by
  induction l with
  | nil => intro d; simp [lookAhead, consecutiveGaps]
  | cons e rest ih =>
      intro d
      rw [consecutiveGaps_cons, lookAhead]
      by_cases h : e - d < BURST_INTERVAL_MS
      · rw [if_pos h, List.takeWhile_cons_of_pos (by simpa using h)]
        rw [ih e, List.length_cons]
        omega
      · rw [if_neg h, List.takeWhile_cons_of_neg (by simpa using h)]
        simp

theorem idleGo_eq_amended (rest : List Commit) : ∀ prev : Commit,
    idleGo prev rest = (adjSplits (prev :: rest)).filterMap fun x =>
      let gap := x.2.1.date - x.1.date
      let run := ((consecutiveGaps (x.2.1.date :: x.2.2.map (·.date))).takeWhile
          (fun g => decide (g < BURST_INTERVAL_MS))).length
      if gap > LONG_IDLE_MS ∧ run + 1 ≥ 3 then
        some ⟨x.1.date, x.2.1.date, jsRound ((gap : ℚ) / 60000), run + 1⟩
      else none := by
  induction rest with
  | nil => intro prev; simp [idleGo, adjSplits]
  | cons c rest ih =>
      intro prev
      have hrun : ((consecutiveGaps (c.date :: rest.map (·.date))).takeWhile
          (fun g => decide (g < BURST_INTERVAL_MS))).length
          = lookAhead c.date (rest.map (·.date)) :=
        (lookAhead_eq_takeWhile (rest.map (·.date)) c.date).symm
      rw [show adjSplits (prev :: c :: rest) = (prev, c, rest) :: adjSplits (c :: rest)
          from rfl]
      rw [List.filterMap_cons, idleGo]
      simp only [hrun, ← ih c]
      by_cases hg : c.date - prev.date > LONG_IDLE_MS
      · by_cases hb : 1 + lookAhead c.date (rest.map (·.date)) ≥ 3
        · rw [if_pos hg, if_pos hb, if_pos ⟨hg, by omega⟩]
          have : lookAhead c.date (rest.map (·.date)) + 1
              = 1 + lookAhead c.date (rest.map (·.date)) := by omega
          rw [this]
        · rw [if_pos hg, if_neg hb, if_neg (fun hc => absurd hc.2 (by omega))]
      · rw [if_neg hg, if_neg (fun hc => absurd hc.1 hg)]

/-- Counterexample to claim C4: on commits at minutes 0, 31, 32, 33 the code
emits one idle-burst episode with `burstCommitCount = 3` (the gap-ending
commit plus a run of only two rapid followers), while the claim's rule —
at least 3 subsequent rapid commits, recording the run length — emits
none. -/
theorem c4_idle_burst_counterexample :
    (analyzeTimingDistribution c4Commits).idleBursts.map (·.burstCommitCount) = [3]
      ∧ (analyzeTimingDistribution c4Commits).idleBursts.map (·.burstStartedAt) = [1860000]
      ∧ claimC4IdleBursts c4Commits = []
      ∧ (analyzeTimingDistribution c4Commits).idleBursts ≠ claimC4IdleBursts c4Commits := by
  refine ⟨?_, ?_, ?_, ?_⟩ <;> decide

/-- Amended C4: the timing analysis emits an idle-burst episode exactly when
a gap `> 30 min` is followed by a run of at least **2** commits each
`< 5 min` after its predecessor (so gap-ending commit plus run totals at
least 3); the episode carries the gap-ending commit as burst start and
`run + 1` (counting the gap-ending commit) as `burstCommitCount`; the
look-ahead run stops at the first gap `≥ 5 min`. -/
theorem c4_idle_burst_amended (commits : List Commit) :
    (analyzeTimingDistribution commits).idleBursts = idleBurstsAmendedSpec commits := by
  cases commits with
  | nil => rfl
  | cons c rest =>
      show idleBurstsOf (c :: rest) = _
      rw [idleBurstsOf, idleBurstsAmendedSpec, idleGo_eq_amended]

/-! ## C5 — window_blur counter updates during ingest -/

/-- A `window_blur` event whose payload reports `focused = true` together
with a nonzero `unfocusedDurationMs`. -/
def blurFocusedTrueEvent : IncomingEvent := ⟨"window_blur", ⟨0, false, some true, 5000, ""⟩⟩

/-- Counterexample to claim C5: a `window_blur` event with
`data.focused ≠ false` still mutates `windowBlurTotalMs` — the duration
accumulation is guarded only by truthiness of `data.unfocusedDurationMs`,
not by `focused === false`. -/
theorem c5_blur_counterexample :
    (applyEventToStats initialStats blurFocusedTrueEvent).windowBlurTotalMs = 5000
      ∧ (applyEventToStats initialStats blurFocusedTrueEvent).windowBlurCount = 0
      ∧ applyEventToStats initialStats blurFocusedTrueEvent ≠ initialStats := by
  refine ⟨?_, ?_, ?_⟩ <;> decide

/-- Amended C5: a `window_blur` event increments `windowBlurCount` by 1
exactly when `data.focused` is `false`, and adds `data.unfocusedDurationMs`
to `windowBlurTotalMs` whenever that value is nonzero (truthy), regardless
of `focused`; the other counters are unchanged. -/
theorem c5_blur_amended (s : Stats) (e : IncomingEvent)
    (h : e.type = "window_blur") :
    (applyEventToStats s e).windowBlurCount
        = s.windowBlurCount + (if e.data.focused = some false then 1 else 0)
      ∧ (applyEventToStats s e).windowBlurTotalMs
          = s.windowBlurTotalMs + e.data.unfocusedDurationMs
      ∧ (applyEventToStats s e).pasteCount = s.pasteCount
      ∧ (applyEventToStats s e).pasteCharsTotal = s.pasteCharsTotal
      ∧ (applyEventToStats s e).typingAnomalies = s.typingAnomalies
      ∧ (applyEventToStats s e).clipboardChanges = s.clipboardChanges := by
  simp only [applyEventToStats, h]
  simp only [show (("window_blur":String) = "paste") = False by simp,
    show (("window_blur":String) = "typing") = False by simp,
    show (("window_blur":String) = "window_blur") = True by simp,
    if_false, if_true, ite_true, ite_false]
  refine ⟨?_, ?_, ?_, ?_, ?_, ?_⟩ <;> split_ifs <;> (try dsimp only) <;> omega

/-- Witness for the amended C5 on a concrete event. -/
theorem c5_blur_amended_witness :
    blurFocusedTrueEvent.type = "window_blur"
      ∧ (applyEventToStats initialStats blurFocusedTrueEvent).windowBlurTotalMs
          = initialStats.windowBlurTotalMs + blurFocusedTrueEvent.data.unfocusedDurationMs :=
  ⟨rfl, (c5_blur_amended initialStats blurFocusedTrueEvent rfl).2.1⟩

/-! ## C6 — extension matching in the cross-repository scan -/

theorem mem_sortFlags {f : Flag} {fs : List Flag} : f ∈ sortFlags fs ↔ f ∈ fs :=
  List.mem_mergeSort

theorem mem_rawFlags (hashF : List Char → ℕ) (sha : List Char → String)
    (repos : List RepoFiles) (θ : ℚ) (f : Flag) :
    f ∈ rawFlags hashF sha repos θ ↔
      ∃ pr, pr ∈ pairsAfter (buildRepoIndex hashF sha repos)
        ∧ ∃ fA, fA ∈ pr.1.2 ∧ ∃ fB, fB ∈ pr.2.2
        ∧ extOf fA.1 = extOf fB.1
        ∧ jaccardSimilarity fA.2.fingerprints fB.2.fingerprints ≥ θ
        ∧ Flag.mk pr.1.1 pr.2.1 fA.1 fB.1
            (round3 (jaccardSimilarity fA.2.fingerprints fB.2.fingerprints))
            (decide (fA.2.hash = fB.2.hash)) = f := by
  simp only [rawFlags, List.mem_flatMap, List.mem_filterMap,
    Option.ite_none_right_eq_some, Option.some.injEq]

theorem mem_rawFlagsLC (hashF : List Char → ℕ) (sha : List Char → String)
    (repos : List RepoFiles) (θ : ℚ) (f : Flag) :
    f ∈ rawFlagsLC hashF sha repos θ ↔
      ∃ pr, pr ∈ pairsAfter (buildRepoIndex hashF sha repos)
        ∧ ∃ fA, fA ∈ pr.1.2 ∧ ∃ fB, fB ∈ pr.2.2
        ∧ extOfLC fA.1 = extOfLC fB.1
        ∧ jaccardSimilarity fA.2.fingerprints fB.2.fingerprints ≥ θ
        ∧ Flag.mk pr.1.1 pr.2.1 fA.1 fB.1
            (round3 (jaccardSimilarity fA.2.fingerprints fB.2.fingerprints))
            (decide (fA.2.hash = fB.2.hash)) = f := by
  simp only [rawFlagsLC, List.mem_flatMap, List.mem_filterMap,
    Option.ite_none_right_eq_some, Option.some.injEq]

/-- Counterexample to claim C6: on two identical files `A.JS` and `b.js`
the code emits nothing (extensions are compared case-sensitively), while
the claim's lowercased-extension rule emits the pair. -/
theorem c6_lowercase_counterexample :
    crossCompareRepos zeroHash emptySha c6Repos (8/10) = []
      ∧ crossCompareReposLC zeroHash emptySha c6Repos (8/10) ≠ [] := by
  constructor
  · have hraw : rawFlags zeroHash emptySha c6Repos (8/10) = [] := by
      rw [List.eq_nil_iff_forall_not_mem]
      intro f hf
      rcases (mem_rawFlags _ _ _ _ _).mp hf with
        ⟨pr, hpr, fA, hfA, fB, hfB, hext, -, -⟩
      have hidx : pairsAfter (buildRepoIndex zeroHash emptySha c6Repos)
          = [(("alice/solution", buildFileMap zeroHash emptySha [("A.JS".data, "abc".data)]),
              ("bob/solution", buildFileMap zeroHash emptySha [("b.js".data, "abc".data)]))] := by
        rfl
      rw [hidx] at hpr
      simp only [List.mem_singleton] at hpr
      subst hpr
      simp only [buildFileMap, List.foldl_cons, List.foldl_nil, mapSet,
        List.any_nil, Bool.false_eq_true, if_false, List.nil_append,
        List.mem_singleton] at hfA hfB
      rw [hfA] at hext
      rw [hfB] at hext
      exact absurd hext (by decide)
    rw [crossCompareRepos, hraw]
    simp [sortFlags]
  · have hfp : (fingerprint zeroHash emptySha "abc".data).fingerprints = {0} := by
      rfl
    have hjac : jaccardSimilarity
        (fingerprint zeroHash emptySha "abc".data).fingerprints
        (fingerprint zeroHash emptySha "abc".data).fingerprints = 1 := by
      rw [hfp]
      norm_num [jaccardSimilarity]
    have hbm1 : buildFileMap zeroHash emptySha [("A.JS".data, "abc".data)]
        = [("A.JS".data, fingerprint zeroHash emptySha "abc".data)] := by rfl
    have hbm2 : buildFileMap zeroHash emptySha [("b.js".data, "abc".data)]
        = [("b.js".data, fingerprint zeroHash emptySha "abc".data)] := by rfl
    have hidx : pairsAfter (buildRepoIndex zeroHash emptySha c6Repos)
        = [(("alice/solution", buildFileMap zeroHash emptySha [("A.JS".data, "abc".data)]),
            ("bob/solution", buildFileMap zeroHash emptySha [("b.js".data, "abc".data)]))] := by
      rfl
    apply List.ne_nil_of_mem (a :=
      Flag.mk "alice/solution" "bob/solution" "A.JS".data "b.js".data
        (round3 (jaccardSimilarity
          (fingerprint zeroHash emptySha "abc".data).fingerprints
          (fingerprint zeroHash emptySha "abc".data).fingerprints))
        (decide ((fingerprint zeroHash emptySha "abc".data).hash
          = (fingerprint zeroHash emptySha "abc".data).hash)))
    rw [crossCompareReposLC, mem_sortFlags, mem_rawFlagsLC]
    refine ⟨(("alice/solution", buildFileMap zeroHash emptySha [("A.JS".data, "abc".data)]),
            ("bob/solution", buildFileMap zeroHash emptySha [("b.js".data, "abc".data)])),
      by rw [hidx]; exact List.mem_singleton.mpr rfl,
      ("A.JS".data, fingerprint zeroHash emptySha "abc".data),
      by rw [hbm1]; exact List.mem_singleton.mpr rfl,
      ("b.js".data, fingerprint zeroHash emptySha "abc".data),
      by rw [hbm2]; exact List.mem_singleton.mpr rfl,
      by decide, ?_, rfl⟩
    show jaccardSimilarity (fingerprint zeroHash emptySha "abc".data).fingerprints
        (fingerprint zeroHash emptySha "abc".data).fingerprints ≥ 8/10
    rw [hjac]
    norm_num

/-- Amended C6: a pair of files from two different repositories is emitted
as a match iff their extensions — the last `.`-separated segments, compared
**case-sensitively** (no lowercasing) — are equal and the Jaccard
similarity reaches the threshold; in particular `A.JS` and `b.js` do *not*
count as matching extensions. -/
theorem c6_extension_match_amended (hashF : List Char → ℕ)
    (sha : List Char → String) (repos : List RepoFiles) (θ : ℚ) :
    (∀ f : Flag, f ∈ crossCompareRepos hashF sha repos θ ↔
        ∃ pr, pr ∈ pairsAfter (buildRepoIndex hashF sha repos)
          ∧ ∃ fA, fA ∈ pr.1.2 ∧ ∃ fB, fB ∈ pr.2.2
          ∧ extOf fA.1 = extOf fB.1
          ∧ jaccardSimilarity fA.2.fingerprints fB.2.fingerprints ≥ θ
          ∧ Flag.mk pr.1.1 pr.2.1 fA.1 fB.1
              (round3 (jaccardSimilarity fA.2.fingerprints fB.2.fingerprints))
              (decide (fA.2.hash = fB.2.hash)) = f)
      ∧ extOf "A.JS".data ≠ extOf "b.js".data := by
  refine ⟨fun f => ?_, by decide⟩
  rw [crossCompareRepos, mem_sortFlags, mem_rawFlags]

/-! ## C7 — typing-pattern truncation invariant -/

/-- Claim C7: after every typing-pattern update the interval sequence has
length at most 10000, and whenever the append pushes the length over 10000
exactly the most recent 8000 intervals are kept. -/
theorem c7_typing_cap (old batch : List ℚ) :
    (updateTypingIntervals old batch).length ≤ 10000
      ∧ ((old ++ batch).length > 10000 →
          updateTypingIntervals old batch
              = (old ++ batch).drop ((old ++ batch).length - 8000)
            ∧ (updateTypingIntervals old batch).length = 8000) := by
  unfold updateTypingIntervals
  simp only
  split_ifs with hlen
  · refine ⟨?_, fun _ => ⟨rfl, ?_⟩⟩ <;> (rw [List.length_drop]; omega)
  · exact ⟨by omega, fun hc => absurd hc hlen⟩

/-- Witness for C7 on an overflowing update. -/
theorem c7_typing_cap_witness :
    (List.replicate 10000 (0 : ℚ) ++ [0]).length > 10000
      ∧ (updateTypingIntervals (List.replicate 10000 (0 : ℚ)) [0]).length = 8000 :=
  ⟨by simp only [List.length_append, List.length_replicate, List.length_singleton]; omega,
   ((c7_typing_cap (List.replicate 10000 (0 : ℚ)) [0]).2
      (by simp only [List.length_append, List.length_replicate, List.length_singleton]; omega)).2⟩

/-! ## C10 — fingerprints are never empty; empty normalisations compare
as identical -/

theorem kgramHashes_ne_nil (hashF : List Char → ℕ) (text : List Char) (k : ℕ) :
    kgramHashes hashF text k ≠ [] := by
  rw [kgramHashes]
  split_ifs with h
  · simp
  · intro hc
    have := congrArg List.length hc
    simp at this

theorem emitDedup_nonneg_nonempty (m : ℕ) (rest : List ℕ) :
    (emitDedup (m :: rest) (-1)).Nonempty := by
  rw [emitDedup, if_pos (by omega : (m : ℤ) ≠ -1)]
  exact Finset.insert_nonempty _ _

theorem winnow_nonempty (hashes : List ℕ) (w : ℕ) (h : hashes ≠ []) :
    (winnow hashes w).Nonempty := by
  match hashes with
  | [] => exact absurd rfl h
  | a :: t =>
      rw [winnow]
      split_ifs with hlen
      · exact Finset.singleton_nonempty _
      · have hne : (List.range ((a :: t).length - w + 1)).map
            (fun i => windowMin (((a :: t).drop i).take w)) ≠ [] := by
          intro hc
          have := congrArg List.length hc
          simp at this
        rcases List.exists_cons_of_ne_nil hne with ⟨m, rest, hmr⟩
        rw [hmr]
        exact emitDedup_nonneg_nonempty m rest

/-- Claim C10: `fingerprint` always returns a nonempty fingerprint set
(text shorter than `k` is hashed once; winnowing of a nonempty hash list
emits at least one hash), and `compareCode` on two inputs whose
normalisations are both empty returns similarity 1.0 with
`identicalContent = true`. -/
theorem c10_fingerprint_nonempty :
    (∀ (hashF : List Char → ℕ) (sha : List Char → String) (code : List Char),
        (fingerprint hashF sha code).fingerprints.Nonempty)
      ∧ ∀ (hashF : List Char → ℕ) (sha : List Char → String) (c1 c2 : List Char),
          normalise c1 = [] → normalise c2 = [] →
          (compareCode hashF sha c1 c2).similarity = 1
            ∧ (compareCode hashF sha c1 c2).identicalContent = true := by
  constructor
  · intro hashF sha code
    exact winnow_nonempty _ _ (kgramHashes_ne_nil hashF (normalise code) DEFAULT_K)
  · intro hashF sha c1 c2 h1 h2
    have hhash : (fingerprint hashF sha c1).hash = (fingerprint hashF sha c2).hash := by
      simp only [fingerprint, h1, h2]
    constructor <;> simp [compareCode, hhash]

/-- Witness for C10 on two comment-and-whitespace-only files. -/
theorem c10_fingerprint_nonempty_witness :
    normalise "// only a comment".data = []
      ∧ normalise "  /* block */  ".data = []
      ∧ (compareCode zeroHash emptySha "// only a comment".data
          "  /* block */  ".data).similarity = 1
      ∧ (compareCode zeroHash emptySha "// only a comment".data
          "  /* block */  ".data).identicalContent = true :=
  ⟨by decide, by decide,
   (c10_fingerprint_nonempty.2 zeroHash emptySha _ _ (by decide) (by decide)).1,
   (c10_fingerprint_nonempty.2 zeroHash emptySha _ _ (by decide) (by decide)).2⟩

/-! ## C8 — `highestSimilarity` invariant under match persistence -/

/-- From a fresh record, any interleaving of match-persisting updates
(`$push similarityMatches` with `$max highestSimilarity`) and
commit-analysis merges keeps `highestSimilarity` equal to the maximum of
the recorded match similarities (0 when none). -/
theorem runOps_maxSimilarity_aux (ops : List SyncOp) (a : AnalysisDoc)
    (h : a.highestSimilarity = maxSimilarity a.similarityMatches) :
    (ops.foldl applyOp a).highestSimilarity
      = maxSimilarity (ops.foldl applyOp a).similarityMatches := by
  induction ops generalizing a with
  | nil => exact h
  | cons op rest ih =>
    rw [List.foldl_cons]
    refine ih _ ?_
    cases op with
    | pushMatch m =>
        simp only [applyOp, maxSimilarity, List.map_append, List.foldl_append] at *
        simp [h, maxSimilarity]
    | mergeCommitAnalysis avg bursts => simpa [applyOp] using h

/-- Claim C8: after every match-persisting operation on a source-analysis
record, `highestSimilarity = max(similarityMatches.similarity ∪ ⟨0⟩)`, and
`highestSimilarity` never decreases under any operation. -/
theorem c8_highest_similarity_invariant :
    (∀ ops : List SyncOp,
        (runOps ops).highestSimilarity = maxSimilarity (runOps ops).similarityMatches)
      ∧ ∀ (a : AnalysisDoc) (op : SyncOp),
          a.highestSimilarity ≤ (applyOp a op).highestSimilarity := by
  constructor
  · intro ops
    exact runOps_maxSimilarity_aux ops initialAnalysis (by simp [initialAnalysis, maxSimilarity])
  · intro a op
    cases op with
    | pushMatch m => exact le_max_left _ _
    | mergeCommitAnalysis avg bursts => exact le_refl _

/-! ## C9 — idempotence of `normalise`

The proof characterises the output of `normalise`: it contains no `//`
pair, no block-comment match, no `#`, only single interior spaces as
whitespace, no uppercase ASCII, and no leading or trailing whitespace —
and each stage of `normalise` is the identity on such strings. -/

/-! ### Character-level facts about `asciiToLower` -/

theorem asciiToLower_toNat_of_upper {c : Char} (h : 'A' ≤ c ∧ c ≤ 'Z') :
    (asciiToLower c).toNat = c.toNat + 32 := by
  rw [asciiToLower, if_pos h]
  obtain ⟨h1, h2⟩ := h
  have hv : (c.toNat + 32).isValidChar := by
    rw [Char.le_def] at h1 h2
    have h1' : 65 ≤ c.toNat := h1
    have h2' : c.toNat ≤ 90 := h2
    left
    omega
  rw [Char.ofNat, dif_pos hv]
  rfl

theorem toNat_le_of_le {a b : Char} (h : a ≤ b) : a.toNat ≤ b.toNat := h

theorem upper_toNat {c : Char} (h : 'A' ≤ c ∧ c ≤ 'Z') :
    65 ≤ c.toNat ∧ c.toNat ≤ 90 :=
  ⟨toNat_le_of_le h.1, toNat_le_of_le h.2⟩

theorem asciiToLower_idem (c : Char) :
    asciiToLower (asciiToLower c) = asciiToLower c := by
  by_cases h : 'A' ≤ c ∧ c ≤ 'Z'
  · have ht := asciiToLower_toNat_of_upper h
    have hb := upper_toNat h
    conv_lhs => rw [asciiToLower]
    rw [if_neg]
    intro hcon
    have := toNat_le_of_le hcon.2
    change (asciiToLower c).toNat ≤ 90 at this
    omega
  · have hc : asciiToLower c = c := by rw [asciiToLower, if_neg h]
    rw [hc]
    exact hc

theorem asciiToLower_eq_special {c d : Char}
    (hd : d.toNat < 97 ∨ 122 < d.toNat) (h : asciiToLower c = d) : c = d := by
  by_cases hc : 'A' ≤ c ∧ c ≤ 'Z'
  · exfalso
    have ht := asciiToLower_toNat_of_upper hc
    have hb := upper_toNat hc
    rw [h] at ht
    omega
  · rwa [asciiToLower, if_neg hc] at h

theorem isJsWs_false_of_print {x : Char} (h1 : 35 ≤ x.toNat) (h2 : x.toNat ≤ 122) :
    isJsWs x = false := by
  rw [isJsWs, decide_eq_false_iff_not]
  intro hx
  rcases hx with h | h | h | h | h | h | h | h | h | h | h | h | h | h | h
  · rw [h] at h1; exact absurd h1 (by decide)
  · rw [h] at h1; exact absurd h1 (by decide)
  · rw [h] at h1; exact absurd h1 (by decide)
  · rw [h] at h1; exact absurd h1 (by decide)
  · rw [h] at h1; exact absurd h1 (by decide)
  · rw [h] at h1; exact absurd h1 (by decide)
  · rw [h] at h2; exact absurd h2 (by decide)
  · rw [h] at h2; exact absurd h2 (by decide)
  · obtain ⟨ha, -⟩ := h
    have := toNat_le_of_le ha
    change (8192 : ℕ) ≤ x.toNat at this
    omega
  · rw [h] at h2; exact absurd h2 (by decide)
  · rw [h] at h2; exact absurd h2 (by decide)
  · rw [h] at h2; exact absurd h2 (by decide)
  · rw [h] at h2; exact absurd h2 (by decide)
  · rw [h] at h2; exact absurd h2 (by decide)
  · rw [h] at h2; exact absurd h2 (by decide)

theorem isJsWs_asciiToLower (c : Char) : isJsWs (asciiToLower c) = isJsWs c := by
  by_cases hc : 'A' ≤ c ∧ c ≤ 'Z'
  · have ht := asciiToLower_toNat_of_upper hc
    have hb := upper_toNat hc
    rw [isJsWs_false_of_print (by omega) (by omega),
        isJsWs_false_of_print (x := c) (by omega) (by omega)]
  · rw [asciiToLower, if_neg hc]

/-! ### Basic facts about `pairIn` and `badBlock` -/

theorem pairIn_cons {p q a : Char} {l : List Char} :
    pairIn p q (a :: l) = true ↔
      (a = p ∧ l.head? = some q) ∨ pairIn p q l = true := by
  cases l with
  | nil => simp [pairIn]
  | cons b rest => simp [pairIn]

theorem pairIn_append {p q : Char} : ∀ {xs ys : List Char},
    pairIn p q (xs ++ ys) = true ↔
      pairIn p q xs = true
        ∨ (xs.getLast? = some p ∧ ys.head? = some q)
        ∨ pairIn p q ys = true := by
  intro xs
  induction xs with
  | nil => intro ys; simp [pairIn]
  | cons a xs ih =>
      intro ys
      rw [List.cons_append, pairIn_cons, pairIn_cons, ih]
      cases xs with
      | nil => simp [pairIn]
      | cons b xs' =>
          rw [List.getLast?_cons_cons]
          simp only [List.head?_cons, List.cons_append, List.head?_cons]
          tauto

theorem pairIn_cons_of (p q a : Char) {l : List Char} (h : pairIn p q l = true) :
    pairIn p q (a :: l) = true :=
  pairIn_cons.mpr (Or.inr h)

theorem pairIn_suffix {p q : Char} {s l : List Char} (hs : s <:+ l)
    (h : pairIn p q s = true) : pairIn p q l = true := by
  obtain ⟨t, rfl⟩ := hs
  exact pairIn_append.mpr (Or.inr (Or.inr h))

theorem pairIn_infix {p q : Char} {s l : List Char} (hs : s <:+: l)
    (h : pairIn p q s = true) : pairIn p q l = true := by
  obtain ⟨t, u, rfl⟩ := hs
  rw [List.append_assoc]
  exact pairIn_append.mpr (Or.inr (Or.inr (pairIn_append.mpr (Or.inl h))))

theorem badBlock_cons_ne {a : Char} {l : List Char} (ha : a ≠ '/') :
    badBlock (a :: l) = badBlock l := by
  cases l with
  | nil => simp [badBlock]
  | cons b rest =>
      rw [badBlock, if_neg (fun hc => ha hc.1)]

theorem badBlock_cons {a : Char} {l : List Char} :
    badBlock (a :: l) = true ↔
      (a = '/' ∧ ∃ l', l = '*' :: l'
          ∧ (pairIn '*' '/' l' = true ∨ badBlock l' = true))
        ∨ badBlock l = true := by
  cases l with
  | nil => simp [badBlock]
  | cons b rest =>
      rw [badBlock]
      split_ifs with hab
      · obtain ⟨ha, hb⟩ := hab
        subst ha; subst hb
        rw [badBlock_cons_ne (by decide)]
        simp only [Bool.or_eq_true]
        constructor
        · rintro (h | h)
          · exact Or.inl ⟨by trivial, rest, rfl, Or.inl h⟩
          · exact Or.inr h
        · rintro (⟨h0, l', hl', hpb⟩ | h)
          · cases hl'
            exact hpb
          · exact Or.inr h
      · constructor
        · intro h; exact Or.inr h
        · rintro (⟨ha, l', hl', hpb⟩ | h)
          · injection hl' with h1 h2
            exact absurd ⟨ha, h1⟩ hab
          · exact h

theorem pairIn_false_tail {p q a : Char} {l : List Char}
    (h : pairIn p q (a :: l) = false) : pairIn p q l = false := by
  cases hpl : pairIn p q l
  · rfl
  · have hc := pairIn_cons_of p q a hpl
    rw [h] at hc
    exact absurd hc (by decide)

theorem badBlock_false_of_no_close {l : List Char}
    (h : pairIn '*' '/' l = false) : badBlock l = false := by
  induction l using badBlock.induct with
  | case1 => rfl
  | case2 x => rfl
  | case3 a b rest hab ih =>
      rw [badBlock, if_pos hab]
      have h1 := pairIn_false_tail h
      have h2 := pairIn_false_tail h1
      rw [h2, ih h2]
      rfl
  | case4 a b rest hab ih =>
      rw [badBlock, if_neg hab]
      exact ih (pairIn_false_tail h)

theorem badBlock_mono_cons {a : Char} {l : List Char}
    (h : badBlock l = true) : badBlock (a :: l) = true :=
  badBlock_cons.mpr (Or.inr h)

theorem badBlock_append_right {s : List Char} (t : List Char)
    (h : badBlock s = true) : badBlock (s ++ t) = true := by
  induction s using badBlock.induct with
  | case1 => exact absurd h (by decide)
  | case2 x => exact absurd h (by simp [badBlock])
  | case3 a b rest hab ih =>
      rw [badBlock, if_pos hab] at h
      rw [List.cons_append, List.cons_append, badBlock, if_pos hab]
      rcases Bool.or_eq_true _ _ |>.mp h with h1 | h1
      · rw [pairIn_append.mpr (Or.inl h1)]
        rfl
      · rw [ih h1]
        simp
  | case4 a b rest hab ih =>
      rw [badBlock, if_neg hab] at h
      rw [List.cons_append, List.cons_append, badBlock, if_neg hab]
      rw [← List.cons_append]
      exact ih h

theorem badBlock_append_left (u : List Char) {m : List Char}
    (h : badBlock m = true) : badBlock (u ++ m) = true := by
  induction u with
  | nil => exact h
  | cons a u ih => exact badBlock_mono_cons ih

theorem badBlock_infix {s l : List Char} (hs : s <:+: l)
    (h : badBlock s = true) : badBlock l = true := by
  obtain ⟨t, u, rfl⟩ := hs
  rw [List.append_assoc]
  exact badBlock_append_left t (badBlock_append_right u h)

/-! ### The `//`-stripping stage -/

theorem slashGo_head (b : Bool) (l : List Char) (ch : Char)
    (h : (slashGo b l).head? = some ch) :
    (b = false ∧ l.head? = some ch) ∨ isLineTerm ch = true := by
  induction b, l using slashGo.induct with
  | case1 b => exact absurd h (by simp [slashGo])
  | case2 c rest hterm ih =>
      rw [slashGo, if_pos hterm] at h
      rw [List.head?_cons] at h
      injection h with h
      exact Or.inr (h ▸ hterm)
  | case3 c rest hterm ih =>
      rw [slashGo, if_neg hterm] at h
      rcases ih h with ⟨hf, -⟩ | ht
      · exact absurd hf (by decide)
      · exact Or.inr ht
  | case4 rest ih =>
      rw [slashGo] at h
      rcases ih h with ⟨hf, -⟩ | ht
      · exact absurd hf (by decide)
      · exact Or.inr ht
  | case5 c rest hne ih =>
      rw [slashGo] at h
      · rw [List.head?_cons] at h
        injection h with h
        exact Or.inl ⟨rfl, by rw [List.head?_cons, h]⟩
      · exact hne

theorem slashGo_no_double_slash (b : Bool) (l : List Char) :
    pairIn '/' '/' (slashGo b l) = false := by
  induction b, l using slashGo.induct with
  | case1 b => cases b <;> rfl
  | case2 c rest hterm ih =>
      rw [slashGo, if_pos hterm]
      cases hp : pairIn '/' '/' (c :: slashGo false rest)
      · rfl
      · exfalso
        rcases pairIn_cons.mp hp with ⟨hc, hh⟩ | htl
        · rw [hc] at hterm
          exact absurd hterm (by decide)
        · rw [ih] at htl
          exact absurd htl (by decide)
  | case3 c rest hterm ih => rw [slashGo, if_neg hterm]; exact ih
  | case4 rest ih => rw [slashGo]; exact ih
  | case5 c rest hne ih =>
      rw [slashGo]
      · cases hp : pairIn '/' '/' (c :: slashGo false rest)
        · rfl
        · exfalso
          rcases pairIn_cons.mp hp with ⟨hc, hh⟩ | htl
          · rcases slashGo_head false rest '/' hh with ⟨-, hrest⟩ | ht
            · rcases List.head?_eq_some_iff.mp hrest with ⟨rest', hrest'⟩
              exact hne rest' hc hrest'
            · exact absurd ht (by decide)
          · rw [ih] at htl
            exact absurd htl (by decide)
      · exact hne

/-- The `//`-strip is the identity when the input has no `//`. -/
theorem slashGo_id (l : List Char) :
    pairIn '/' '/' l = false → slashGo false l = l := by
  induction l with
  | nil => intro h; rfl
  | cons c rest ih =>
      intro h
      rw [slashGo]
      · rw [ih (pairIn_false_tail h)]
      · intro r1 hc hr
        subst hc; subst hr
        rw [show pairIn '/' '/' ('/' :: '/' :: r1) = true from by simp [pairIn]] at h
        exact absurd h (by decide)


/-! ### The block-comment stage -/

theorem charList_strong_ind {P : List Char → Prop}
    (H : ∀ l : List Char, (∀ m : List Char, m.length < l.length → P m) → P l) :
    ∀ l, P l := by
  intro l
  generalize hn : l.length = n
  induction n using Nat.strong_induction_on generalizing l with
  | _ n ih =>
      subst hn
      exact H l (fun m hm => ih m.length hm m rfl)

/-- When the tail holds no `*/`, the buffered block is emitted verbatim. -/
theorem blockGo_some_id {l : List Char} (h : pairIn '*' '/' l = false) :
    ∀ acc, blockGo (some acc) l = acc.reverse ++ l := by
  induction l with
  | nil => intro acc; simp [blockGo]
  | cons c rest ih =>
      intro acc
      rw [blockGo]
      · rw [ih (pairIn_false_tail h)]
        simp
      · intro r1 hc hr
        subst hc; subst hr
        rw [show pairIn '*' '/' ('*' :: '/' :: r1) = true from by simp [pairIn]] at h
        exact absurd h (by decide)

/-- When the tail holds a `*/`, the buffered block is dropped through the
first close and scanning resumes. -/
theorem blockGo_some_close (l : List Char) (hc : pairIn '*' '/' l = true)
    (acc : List Char) :
    ∃ rest2, rest2.length + 2 ≤ l.length ∧ rest2 <:+ l
      ∧ blockGo (some acc) l = blockGo none rest2 := by
  induction l generalizing acc with
  | nil => exact absurd hc (by decide)
  | cons c rest ih =>
      by_cases hcr : c = '*' ∧ rest.head? = some '/'
      · obtain ⟨hc1, hh⟩ := hcr
        subst hc1
        rcases List.head?_eq_some_iff.mp hh with ⟨rest', rfl⟩
        exact ⟨rest', by simp, ⟨['*', '/'], rfl⟩, rfl⟩
      · have h' : pairIn '*' '/' rest = true := by
          rcases pairIn_cons.mp hc with ⟨hc1, hh⟩ | htl
          · exact absurd ⟨hc1, hh⟩ hcr
          · exact htl
        obtain ⟨rest2, hlen, hsuf, heq⟩ := ih h' (c :: acc)
        refine ⟨rest2, by simp only [List.length_cons]; omega,
          hsuf.trans (List.suffix_cons c rest), ?_⟩
        rw [blockGo]
        · exact heq
        · intro r1 hc1 hr
          exact hcr ⟨hc1, by rw [hr]; rfl⟩

theorem blockGo_head (l : List Char) (ch : Char)
    (h : (blockGo none l).head? = some ch) :
    l.head? = some ch ∨ l.head? = some '/' := by
  cases l with
  | nil => exact absurd h (by simp [blockGo])
  | cons c rest =>
      by_cases hcr : c = '/' ∧ rest.head? = some '*'
      · exact Or.inr (by rw [List.head?_cons, hcr.1])
      · left
        rw [show blockGo none (c :: rest) = c :: blockGo none rest from by
          rw [blockGo]
          intro r1 hc1 hr
          exact hcr ⟨hc1, by rw [hr]; rfl⟩] at h
        rw [List.head?_cons]
        rw [List.head?_cons] at h
        exact h

/-- The block-comment strip creates no new `//` pair. -/
theorem blockGo_noDS_transfer : ∀ (st : Option (List Char)) (l : List Char),
    pairIn '/' '/' (blockGo st l) = true →
      pairIn '/' '/' (stateText st ++ l) = true := by
  intro st l
  induction st, l using blockGo.induct with
  | case1 rest ih =>
      intro h
      have := ih h
      simpa [stateText] using this
  | case2 c rest hne ih =>
      intro h
      rw [show blockGo none (c :: rest) = c :: blockGo none rest from by
        rw [blockGo]; exact hne] at h
      simp only [stateText, List.nil_append] at ih ⊢
      rcases pairIn_cons.mp h with ⟨hc1, hh⟩ | htl
      · rcases blockGo_head rest '/' hh with h1 | h1
        · exact pairIn_cons.mpr (Or.inl ⟨hc1, h1⟩)
        · exact pairIn_cons.mpr (Or.inl ⟨hc1, h1⟩)
      · exact pairIn_cons_of _ _ c (ih htl)
  | case3 =>
      intro h
      exact absurd h (by decide)
  | case4 val rest ih =>
      intro h
      have := ih h
      simp only [stateText, List.nil_append] at this
      simp only [stateText]
      exact pairIn_append.mpr (Or.inr (Or.inr
        (pairIn_cons_of _ _ _ (pairIn_cons_of _ _ _ this))))
  | case5 acc c rest hne ih =>
      intro h
      rw [show blockGo (some acc) (c :: rest) = blockGo (some (c :: acc)) rest from by
        rw [blockGo]; exact hne] at h
      have := ih h
      simp only [stateText, List.reverse_cons, List.append_assoc,
        List.singleton_append] at this
      simpa [stateText] using this
  | case6 acc =>
      intro h
      simpa [stateText, blockGo] using h

/-- The block-comment strip leaves no opener-with-later-close behind
(given the input has no `//`, which holds after the line-comment strip). -/
theorem blockGo_no_badBlock :
    ∀ l, pairIn '/' '/' l = false → badBlock (blockGo none l) = false := by
  refine charList_strong_ind
    (P := fun l => pairIn '/' '/' l = false → badBlock (blockGo none l) = false) ?_
  intro l SI hds
  cases l with
  | nil => rfl
  | cons c rest =>
      by_cases hcr : c = '/' ∧ rest.head? = some '*'
      · obtain ⟨hc1, hh⟩ := hcr
        subst hc1
        rcases List.head?_eq_some_iff.mp hh with ⟨rest', rfl⟩
        rw [show blockGo none ('/' :: '*' :: rest') = blockGo (some ['*', '/']) rest'
          from by rw [blockGo]]
        cases hcl : pairIn '*' '/' rest'
        · rw [blockGo_some_id hcl]
          rw [show (['*', '/'] : List Char).reverse ++ rest' = '/' :: '*' :: rest'
            from rfl]
          rw [badBlock, if_pos ⟨rfl, rfl⟩, hcl, badBlock_false_of_no_close hcl]
          rfl
        · obtain ⟨rest2, hlen, hsuf, heq⟩ := blockGo_some_close rest' hcl ['*', '/']
          rw [heq]
          have hds2 : pairIn '/' '/' rest2 = false := by
            cases hq : pairIn '/' '/' rest2
            · rfl
            · have := pairIn_suffix
                (hsuf.trans (⟨['/', '*'], rfl⟩ : rest' <:+ '/' :: '*' :: rest')) hq
              rw [hds] at this
              exact absurd this (by decide)
          exact SI rest2 (by simp only [List.length_cons]; omega) hds2
      · rw [show blockGo none (c :: rest) = c :: blockGo none rest from by
          rw [blockGo]
          intro r1 hc1 hr
          exact hcr ⟨hc1, by rw [hr]; rfl⟩]
        cases hbb : badBlock (c :: blockGo none rest)
        · rfl
        · exfalso
          rcases badBlock_cons.mp hbb with ⟨hc1, X', hX', hpb⟩ | hX
          · have hh : (blockGo none rest).head? = some '*' := by rw [hX']; rfl
            rcases blockGo_head rest '*' hh with h1 | h1
            · exact hcr ⟨hc1, h1⟩
            · have : pairIn '/' '/' (c :: rest) = true :=
                pairIn_cons.mpr (Or.inl ⟨hc1, h1⟩)
              rw [hds] at this
              exact absurd this (by decide)
          · have := SI rest (by simp) (pairIn_false_tail hds)
            rw [this] at hX
            exact absurd hX (by decide)

/-- The block-comment strip is the identity when there is no complete
block comment. -/
theorem blockGo_id : ∀ l, badBlock l = false → blockGo none l = l := by
  intro l
  induction l with
  | nil => intro h; rfl
  | cons c rest ih =>
      intro h
      by_cases hcr : c = '/' ∧ rest.head? = some '*'
      · obtain ⟨hc1, hh⟩ := hcr
        subst hc1
        rcases List.head?_eq_some_iff.mp hh with ⟨rest', rfl⟩
        rw [badBlock, if_pos ⟨rfl, rfl⟩] at h
        have h1 : pairIn '*' '/' rest' = false := by
          cases hx : pairIn '*' '/' rest'
          · rfl
          · rw [hx] at h; simp at h
        rw [show blockGo none ('/' :: '*' :: rest') = blockGo (some ['*', '/']) rest'
          from by rw [blockGo]]
        rw [blockGo_some_id h1]
        rfl
      · rw [show blockGo none (c :: rest) = c :: blockGo none rest from by
          rw [blockGo]
          intro r1 hc1 hr
          exact hcr ⟨hc1, by rw [hr]; rfl⟩]
        have hrest : badBlock rest = false := by
          cases hx : badBlock rest
          · rfl
          · have := badBlock_mono_cons (a := c) hx
            rw [h] at this
            exact absurd this (by decide)
        rw [ih hrest]

/-! ### The `#`-stripping stage -/

theorem hashGo_cons_ne {c : Char} (hc : c ≠ '#') (rest : List Char) :
    hashGo false (c :: rest) = c :: hashGo false rest := by
  rw [hashGo]
  exact hc

theorem hashGo_head (b : Bool) (l : List Char) (ch : Char)
    (h : (hashGo b l).head? = some ch) :
    (b = false ∧ l.head? = some ch) ∨ isLineTerm ch = true := by
  induction b, l using hashGo.induct with
  | case1 b => exact absurd h (by cases b <;> simp [hashGo])
  | case2 c rest hterm ih =>
      rw [hashGo, if_pos hterm] at h
      rw [List.head?_cons] at h
      injection h with h
      exact Or.inr (h ▸ hterm)
  | case3 c rest hterm ih =>
      rw [hashGo, if_neg hterm] at h
      rcases ih h with ⟨hf, -⟩ | ht
      · exact absurd hf (by decide)
      · exact Or.inr ht
  | case4 rest ih =>
      rw [hashGo] at h
      rcases ih h with ⟨hf, -⟩ | ht
      · exact absurd hf (by decide)
      · exact Or.inr ht
  | case5 c rest hne ih =>
      rw [hashGo] at h
      · rw [List.head?_cons] at h
        injection h with h
        exact Or.inl ⟨rfl, by rw [List.head?_cons, h]⟩
      · exact hne

/-- The `#`-strip creates no new adjacent pair whose second character is
not a line terminator. -/
theorem hashGo_pair_transfer {p q : Char} (hq : isLineTerm q = false) :
    ∀ (b : Bool) (l : List Char),
      pairIn p q (hashGo b l) = true → pairIn p q l = true := by
  intro b l
  induction b, l using hashGo.induct with
  | case1 b =>
      intro h
      exact absurd h (by cases b <;> simp [hashGo, pairIn])
  | case2 c rest hterm ih =>
      intro h
      rw [hashGo, if_pos hterm] at h
      rcases pairIn_cons.mp h with ⟨hc, hh⟩ | htl
      · rcases hashGo_head false rest q hh with ⟨-, hrest⟩ | ht
        · exact pairIn_cons.mpr (Or.inl ⟨hc, hrest⟩)
        · rw [ht] at hq
          exact absurd hq (by decide)
      · exact pairIn_cons_of _ _ c (ih htl)
  | case3 c rest hterm ih =>
      intro h
      rw [hashGo, if_neg hterm] at h
      exact pairIn_cons_of _ _ c (ih h)
  | case4 rest ih =>
      intro h
      rw [hashGo] at h
      exact pairIn_cons_of _ _ _ (ih h)
  | case5 c rest hne ih =>
      intro h
      rw [hashGo] at h
      · rcases pairIn_cons.mp h with ⟨hc, hh⟩ | htl
        · rcases hashGo_head false rest q hh with ⟨-, hrest⟩ | ht
          · exact pairIn_cons.mpr (Or.inl ⟨hc, hrest⟩)
          · rw [ht] at hq
            exact absurd hq (by decide)
        · exact pairIn_cons_of _ _ c (ih htl)
      · exact hne

/-- The `#`-strip creates no opener-with-later-close. -/
theorem hashGo_badBlock_transfer :
    ∀ (b : Bool) (l : List Char),
      badBlock (hashGo b l) = true → badBlock l = true := by
  intro b l
  induction b, l using hashGo.induct with
  | case1 b =>
      intro h
      exact absurd h (by cases b <;> simp [hashGo, badBlock])
  | case2 c rest hterm ih =>
      intro h
      rw [hashGo, if_pos hterm] at h
      rcases badBlock_cons.mp h with ⟨hc, O', hO', -⟩ | hX
      · rw [hc] at hterm
        exact absurd hterm (by decide)
      · exact badBlock_mono_cons (ih hX)
  | case3 c rest hterm ih =>
      intro h
      rw [hashGo, if_neg hterm] at h
      exact badBlock_mono_cons (ih h)
  | case4 rest ih =>
      intro h
      rw [hashGo] at h
      exact badBlock_mono_cons (ih h)
  | case5 c rest hne ih =>
      intro h
      rw [hashGo] at h
      · rcases badBlock_cons.mp h with ⟨hc, O', hO', hpb⟩ | hX
        · have hh : (hashGo false rest).head? = some '*' := by rw [hO']; rfl
          rcases hashGo_head false rest '*' hh with ⟨-, hrest⟩ | ht
          · rcases List.head?_eq_some_iff.mp hrest with ⟨rest2, rfl⟩
            have hO2 : hashGo false ('*' :: rest2) = '*' :: hashGo false rest2 :=
              hashGo_cons_ne (by decide) rest2
            rw [hO2] at hO'
            injection hO' with hhd hO'2
            subst hc
            rcases hpb with hp | hb
            · rw [← hO'2] at hp
              have h2 := hashGo_pair_transfer (by decide) false rest2 hp
              rw [badBlock, if_pos ⟨rfl, rfl⟩, h2]
              rfl
            · have hX2 : badBlock (hashGo false ('*' :: rest2)) = true := by
                rw [hO2, hO'2]
                exact badBlock_mono_cons hb
              exact badBlock_mono_cons (ih hX2)
          · exact absurd ht (by decide)
        · exact badBlock_mono_cons (ih hX)
      · exact hne

/-- The `#`-strip removes every `#`. -/
theorem hashGo_no_hash : ∀ (b : Bool) (l : List Char), '#' ∉ hashGo b l := by
  intro b l
  induction b, l using hashGo.induct with
  | case1 b => cases b <;> simp [hashGo]
  | case2 c rest hterm ih =>
      rw [hashGo, if_pos hterm]
      intro hmem
      rcases List.mem_cons.mp hmem with hc | hm
      · rw [← hc] at hterm
        exact absurd hterm (by decide)
      · exact ih hm
  | case3 c rest hterm ih =>
      rw [hashGo, if_neg hterm]
      exact ih
  | case4 rest ih =>
      rw [hashGo]
      exact ih
  | case5 c rest hne ih =>
      rw [hashGo]
      · intro hmem
        rcases List.mem_cons.mp hmem with hc | hm
        · exact hne hc.symm
        · exact ih hm
      · exact hne

/-- The `#`-strip is the identity when the input has no `#`. -/
theorem hashGo_id (l : List Char) (h : '#' ∉ l) : hashGo false l = l := by
  induction l with
  | nil => rfl
  | cons c rest ih =>
      rw [hashGo_cons_ne (fun hc => h (List.mem_cons.mpr (Or.inl hc.symm))) rest]
      rw [ih (fun hm => h (List.mem_cons_of_mem c hm))]

/-! ### The whitespace-collapse stage -/

theorem collapseGo_nil (b : Bool) : collapseGo b [] = [] := by
  cases b <;> rfl

theorem collapseGo_cons_not_ws {c : Char} (hw : isJsWs c = false)
    (b : Bool) (rest : List Char) :
    collapseGo b (c :: rest) = c :: collapseGo false rest := by
  rw [collapseGo, hw]
  simp

theorem collapseGo_cons_ws_false {c : Char} (hw : isJsWs c = true)
    (rest : List Char) :
    collapseGo false (c :: rest) = ' ' :: collapseGo true rest := by
  rw [collapseGo, hw]
  simp

theorem collapseGo_cons_ws_true {c : Char} (hw : isJsWs c = true)
    (rest : List Char) :
    collapseGo true (c :: rest) = collapseGo true rest := by
  rw [collapseGo, hw]
  simp

theorem collapseGo_false_head {l : List Char} {ch : Char}
    (h : (collapseGo false l).head? = some ch) :
    ch = ' ' ∨ l.head? = some ch := by
  cases l with
  | nil =>
      rw [collapseGo_nil] at h
      exact absurd h (by simp)
  | cons c rest =>
      cases hw : isJsWs c
      · rw [collapseGo_cons_not_ws hw, List.head?_cons] at h
        injection h with h
        exact Or.inr (by rw [List.head?_cons, h])
      · rw [collapseGo_cons_ws_false hw, List.head?_cons] at h
        injection h with h
        exact Or.inl h.symm

theorem collapseGo_true_head : ∀ {l : List Char} {ch : Char},
    (collapseGo true l).head? = some ch → isJsWs ch = false := by
  intro l
  induction l with
  | nil =>
      intro ch h
      rw [collapseGo_nil] at h
      exact absurd h (by simp)
  | cons c rest ih =>
      intro ch h
      cases hw : isJsWs c
      · rw [collapseGo_cons_not_ws hw, List.head?_cons] at h
        injection h with h
        rw [← h]
        exact hw
      · rw [collapseGo_cons_ws_true hw] at h
        exact ih h

/-- Whitespace-collapse creates no new adjacent pair of non-space
characters. -/
theorem collapseGo_pair_transfer {p q : Char} (hp : p ≠ ' ') (hq : q ≠ ' ') :
    ∀ (b : Bool) (l : List Char),
      pairIn p q (collapseGo b l) = true → pairIn p q l = true := by
  intro b l
  induction l generalizing b with
  | nil =>
      intro h
      rw [collapseGo_nil] at h
      simp [pairIn] at h
  | cons c rest ih =>
      intro h
      cases hw : isJsWs c
      · rw [collapseGo_cons_not_ws hw] at h
        rcases pairIn_cons.mp h with ⟨hc, hh⟩ | htl
        · rcases collapseGo_false_head hh with h1 | h1
          · exact absurd h1 hq
          · exact pairIn_cons.mpr (Or.inl ⟨hc, h1⟩)
        · exact pairIn_cons_of _ _ c (ih false htl)
      · cases b
        · rw [collapseGo_cons_ws_false hw] at h
          rcases pairIn_cons.mp h with ⟨hc, -⟩ | htl
          · exact absurd hc.symm hp
          · exact pairIn_cons_of _ _ c (ih true htl)
        · rw [collapseGo_cons_ws_true hw] at h
          exact pairIn_cons_of _ _ c (ih true h)

/-- Every character of the collapsed text is a space or a non-whitespace
character of the input. -/
theorem collapseGo_mem : ∀ (b : Bool) (l : List Char) (c : Char),
    c ∈ collapseGo b l → c = ' ' ∨ (isJsWs c = false ∧ c ∈ l) := by
  intro b l
  induction l generalizing b with
  | nil =>
      intro c h
      rw [collapseGo_nil] at h
      exact absurd h (by simp)
  | cons d rest ih =>
      intro c h
      cases hw : isJsWs d
      · rw [collapseGo_cons_not_ws hw] at h
        rcases List.mem_cons.mp h with hc | hm
        · exact Or.inr ⟨by rw [hc]; exact hw, by rw [hc]; exact List.mem_cons_self d rest⟩
        · rcases ih false c hm with h1 | ⟨h1, h2⟩
          · exact Or.inl h1
          · exact Or.inr ⟨h1, List.mem_cons_of_mem d h2⟩
      · cases b
        · rw [collapseGo_cons_ws_false hw] at h
          rcases List.mem_cons.mp h with hc | hm
          · exact Or.inl hc
          · rcases ih true c hm with h1 | ⟨h1, h2⟩
            · exact Or.inl h1
            · exact Or.inr ⟨h1, List.mem_cons_of_mem d h2⟩
        · rw [collapseGo_cons_ws_true hw] at h
          rcases ih true c h with h1 | ⟨h1, h2⟩
          · exact Or.inl h1
          · exact Or.inr ⟨h1, List.mem_cons_of_mem d h2⟩

/-- The collapsed text never holds two adjacent spaces. -/
theorem collapseGo_no_double_space : ∀ (b : Bool) (l : List Char),
    pairIn ' ' ' ' (collapseGo b l) = false := by
  intro b l
  induction l generalizing b with
  | nil =>
      rw [collapseGo_nil]
      rfl
  | cons c rest ih =>
      cases hw : isJsWs c
      · rw [collapseGo_cons_not_ws hw]
        cases hp : pairIn ' ' ' ' (c :: collapseGo false rest)
        · rfl
        · exfalso
          rcases pairIn_cons.mp hp with ⟨hc, -⟩ | htl
          · rw [hc] at hw
            exact absurd hw (by decide)
          · rw [ih false] at htl
            exact absurd htl (by decide)
      · cases b
        · rw [collapseGo_cons_ws_false hw]
          cases hp : pairIn ' ' ' ' (' ' :: collapseGo true rest)
          · rfl
          · exfalso
            rcases pairIn_cons.mp hp with ⟨-, hh⟩ | htl
            · have := collapseGo_true_head hh
              exact absurd this (by decide)
            · rw [ih true] at htl
              exact absurd htl (by decide)
        · rw [collapseGo_cons_ws_true hw]
          exact ih true

/-- Whitespace-collapse creates no opener-with-later-close. -/
theorem collapseGo_badBlock_transfer : ∀ (b : Bool) (l : List Char),
    badBlock (collapseGo b l) = true → badBlock l = true := by
  intro b l
  induction l generalizing b with
  | nil =>
      intro h
      rw [collapseGo_nil] at h
      exact absurd h (by decide)
  | cons c rest ih =>
      intro h
      cases hw : isJsWs c
      · rw [collapseGo_cons_not_ws hw] at h
        rcases badBlock_cons.mp h with ⟨hc, O', hO', hpb⟩ | hX
        · have hh : (collapseGo false rest).head? = some '*' := by rw [hO']; rfl
          rcases collapseGo_false_head hh with h1 | h1
          · exact absurd h1 (by decide)
          · rcases List.head?_eq_some_iff.mp h1 with ⟨rest2, rfl⟩
            have hO2 : collapseGo false ('*' :: rest2) = '*' :: collapseGo false rest2 :=
              collapseGo_cons_not_ws (by decide) false rest2
            rw [hO2] at hO'
            injection hO' with hhd hO'2
            subst hc
            rcases hpb with hpr | hb
            · rw [← hO'2] at hpr
              have h2 := collapseGo_pair_transfer (by decide) (by decide) false rest2 hpr
              rw [badBlock, if_pos ⟨rfl, rfl⟩, h2]
              rfl
            · have hX2 : badBlock (collapseGo false ('*' :: rest2)) = true := by
                rw [hO2, hO'2]
                exact badBlock_mono_cons hb
              exact badBlock_mono_cons (ih false hX2)
        · exact badBlock_mono_cons (ih false hX)
      · cases b
        · rw [collapseGo_cons_ws_false hw] at h
          rw [badBlock_cons_ne (by decide)] at h
          exact badBlock_mono_cons (ih true h)
        · rw [collapseGo_cons_ws_true hw] at h
          exact badBlock_mono_cons (ih true h)

/-- Whitespace-collapse is the identity when every whitespace character is
already a space and no two spaces are adjacent. -/
theorem collapseGo_id : ∀ (l : List Char),
    (∀ c ∈ l, isJsWs c = true → c = ' ') →
    pairIn ' ' ' ' l = false →
    collapseGo false l = l := by
  intro l
  induction l with
  | nil =>
      intro h1 h2
      rfl
  | cons c rest ih =>
      intro hws hds
      cases hw : isJsWs c
      · rw [collapseGo_cons_not_ws hw,
          ih (fun d hd hwd => hws d (List.mem_cons_of_mem c hd) hwd)
            (pairIn_false_tail hds)]
      · have hc : c = ' ' := hws c (List.mem_cons_self c rest) hw
        subst hc
        rw [collapseGo_cons_ws_false hw]
        have htail : collapseGo true rest = collapseGo false rest := by
          cases rest with
          | nil => rw [collapseGo_nil, collapseGo_nil]
          | cons d r =>
              have hdw : isJsWs d = false := by
                cases hdw : isJsWs d
                · rfl
                · exfalso
                  have hd : d = ' ' :=
                    hws d (List.mem_cons_of_mem _ (List.mem_cons_self d r)) hdw
                  subst hd
                  rw [show pairIn ' ' ' ' (' ' :: ' ' :: r) = true from by
                    simp [pairIn]] at hds
                  exact absurd hds (by decide)
              rw [collapseGo_cons_not_ws hdw, collapseGo_cons_not_ws hdw]
        rw [htail,
          ih (fun d hd hwd => hws d (List.mem_cons_of_mem _ hd) hwd)
            (pairIn_false_tail hds)]

/-! ### The lowercasing stage -/

/-- Lowercasing creates no new adjacent pair of characters outside the
lowercase-letter range. -/
theorem map_lower_pair_transfer {p q : Char}
    (hp : p.toNat < 97) (hq : q.toNat < 97) :
    ∀ l : List Char,
      pairIn p q (l.map asciiToLower) = true → pairIn p q l = true := by
  intro l
  induction l with
  | nil =>
      intro h
      simp [pairIn] at h
  | cons c rest ih =>
      intro h
      rw [List.map_cons] at h
      rcases pairIn_cons.mp h with ⟨hc, hh⟩ | htl
      · have hc' : c = p := asciiToLower_eq_special (Or.inl hp) hc
        cases rest with
        | nil =>
            rw [List.map_nil] at hh
            exact absurd hh (by simp)
        | cons d r =>
            rw [List.map_cons, List.head?_cons] at hh
            injection hh with hh
            have hd' : d = q := asciiToLower_eq_special (Or.inl hq) hh
            exact pairIn_cons.mpr (Or.inl ⟨hc', by rw [List.head?_cons, hd']⟩)
      · exact pairIn_cons_of _ _ c (ih htl)

/-- Lowercasing creates no opener-with-later-close. -/
theorem map_lower_badBlock_transfer :
    ∀ l : List Char, badBlock (l.map asciiToLower) = true → badBlock l = true := by
  intro l
  induction l with
  | nil =>
      intro h
      exact absurd h (by decide)
  | cons c rest ih =>
      intro h
      rw [List.map_cons] at h
      rcases badBlock_cons.mp h with ⟨hc, O', hO', hpb⟩ | hX
      · have hc' : c = '/' := asciiToLower_eq_special (Or.inl (by decide)) hc
        subst hc'
        cases rest with
        | nil =>
            rw [List.map_nil] at hO'
            exact absurd hO' (by simp)
        | cons d rest2 =>
            rw [List.map_cons] at hO'
            injection hO' with hd hO'2
            have hd' : d = '*' := asciiToLower_eq_special (Or.inl (by decide)) hd
            subst hd'
            rcases hpb with hpr | hb
            · rw [← hO'2] at hpr
              have h2 := map_lower_pair_transfer (by decide) (by decide) rest2 hpr
              rw [badBlock, if_pos ⟨rfl, rfl⟩, h2]
              rfl
            · have hX2 : badBlock (List.map asciiToLower ('*' :: rest2)) = true := by
                rw [List.map_cons,
                  show asciiToLower '*' = '*' from by decide, hO'2]
                exact badBlock_mono_cons hb
              exact badBlock_mono_cons (ih hX2)
      · exact badBlock_mono_cons (ih hX)

/-- Lowercasing is the identity on text with no uppercase ASCII letter. -/
theorem map_lower_id {l : List Char} (h : ∀ c ∈ l, asciiToLower c = c) :
    l.map asciiToLower = l := by
  induction l with
  | nil => rfl
  | cons c rest ih =>
      rw [List.map_cons, h c (List.mem_cons_self c rest),
        ih (fun d hd => h d (List.mem_cons_of_mem c hd))]

/-! ### The trim stage -/

theorem dropWhile_head_not (p : Char → Bool) (l : List Char) {c : Char}
    (h : (l.dropWhile p).head? = some c) : p c = false := by
  induction l with
  | nil => exact absurd h (by simp [List.dropWhile])
  | cons x xs ih =>
      cases hp : p x
      · rw [List.dropWhile_cons_of_neg (by simp [hp]), List.head?_cons] at h
        injection h with h
        rw [← h]
        exact hp
      · rw [List.dropWhile_cons_of_pos hp] at h
        exact ih h

/-- The trimmed text occurs contiguously inside the input. -/
theorem jsTrim_part (l : List Char) : jsTrim l <:+: l := by
  refine ⟨l.takeWhile isJsWs,
    ((l.dropWhile isJsWs).reverse.takeWhile isJsWs).reverse, ?_⟩
  rw [jsTrim, List.append_assoc, ← List.reverse_append,
    List.takeWhile_append_dropWhile, List.reverse_reverse,
    List.takeWhile_append_dropWhile]

theorem jsTrim_mem {c : Char} {l : List Char} (h : c ∈ jsTrim l) : c ∈ l := by
  obtain ⟨t, u, heq⟩ := jsTrim_part l
  rw [← heq]
  simp only [List.mem_append]
  exact Or.inl (Or.inr h)

/-- The trimmed text is an initial segment of the front-trimmed text. -/
theorem jsTrim_eq_heads (l : List Char) :
    ∃ T, l.dropWhile isJsWs = jsTrim l ++ T := by
  refine ⟨((l.dropWhile isJsWs).reverse.takeWhile isJsWs).reverse, ?_⟩
  rw [jsTrim, ← List.reverse_append, List.takeWhile_append_dropWhile,
    List.reverse_reverse]

theorem jsTrim_head_not_ws {l : List Char} {c : Char}
    (h : (jsTrim l).head? = some c) : isJsWs c = false := by
  obtain ⟨T, hT⟩ := jsTrim_eq_heads l
  rcases List.head?_eq_some_iff.mp h with ⟨t', ht'⟩
  have hh : (l.dropWhile isJsWs).head? = some c := by
    rw [hT, ht']
    rfl
  exact dropWhile_head_not isJsWs l hh

theorem jsTrim_last_not_ws {l : List Char} {c : Char}
    (h : (jsTrim l).getLast? = some c) : isJsWs c = false := by
  have hrev : (jsTrim l).reverse = (l.dropWhile isJsWs).reverse.dropWhile isJsWs := by
    rw [jsTrim, List.reverse_reverse]
  have hh : ((l.dropWhile isJsWs).reverse.dropWhile isJsWs).head? = some c := by
    rw [← hrev, List.head?_reverse]
    exact h
  exact dropWhile_head_not isJsWs _ hh

/-- Trim is the identity when neither end is whitespace. -/
theorem jsTrim_id {l : List Char}
    (hhead : ∀ c, l.head? = some c → isJsWs c = false)
    (hlast : ∀ c, l.getLast? = some c → isJsWs c = false) :
    jsTrim l = l := by
  have h1 : l.dropWhile isJsWs = l := by
    cases l with
    | nil => rfl
    | cons x xs =>
        rw [List.dropWhile_cons_of_neg (by simp [hhead x rfl])]
  rw [jsTrim, h1]
  have h2 : l.reverse.dropWhile isJsWs = l.reverse := by
    cases hr : l.reverse with
    | nil => rfl
    | cons x xs =>
        have hx : l.getLast? = some x := by
          rw [← List.head?_reverse, hr, List.head?_cons]
        rw [List.dropWhile_cons_of_neg (by simp [hlast x hx])]
  rw [h2, List.reverse_reverse]

/-- Trim is idempotent. -/
theorem jsTrim_idem (l : List Char) : jsTrim (jsTrim l) = jsTrim l :=
  jsTrim_id (fun _ hc => jsTrim_head_not_ws hc) (fun _ hc => jsTrim_last_not_ws hc)

/-! ### Normalised text is a fixed point of every stage -/

/-- The output of `normalise` has no `//` pair, no block-comment
opener-with-later-close, no `#`, only single spaces as whitespace, and no
uppercase ASCII letter. -/
theorem normalise_conditions (l : List Char) :
    pairIn '/' '/' (normalise l) = false
    ∧ badBlock (normalise l) = false
    ∧ '#' ∉ normalise l
    ∧ (∀ c ∈ normalise l, isJsWs c = true → c = ' ')
    ∧ pairIn ' ' ' ' (normalise l) = false
    ∧ (∀ c ∈ normalise l, asciiToLower c = c) := by
  have hnorm : normalise l =
      jsTrim ((collapseGo false (hashGo false (blockGo none
        (slashGo false l)))).map asciiToLower) := rfl
  have h1 : pairIn '/' '/' (slashGo false l) = false :=
    slashGo_no_double_slash false l
  have h2 : pairIn '/' '/' (blockGo none (slashGo false l)) = false := by
    cases hq : pairIn '/' '/' (blockGo none (slashGo false l))
    · rfl
    · exfalso
      have h := blockGo_noDS_transfer none (slashGo false l) hq
      simp only [stateText, List.nil_append] at h
      rw [h1] at h
      exact absurd h (by decide)
  have h3 : badBlock (blockGo none (slashGo false l)) = false :=
    blockGo_no_badBlock (slashGo false l) h1
  have h4 : pairIn '/' '/' (hashGo false (blockGo none (slashGo false l))) = false := by
    cases hq : pairIn '/' '/' (hashGo false (blockGo none (slashGo false l)))
    · rfl
    · exfalso
      have h := hashGo_pair_transfer (by decide) false (blockGo none (slashGo false l)) hq
      rw [h2] at h
      exact absurd h (by decide)
  have h5 : badBlock (hashGo false (blockGo none (slashGo false l))) = false := by
    cases hq : badBlock (hashGo false (blockGo none (slashGo false l)))
    · rfl
    · exfalso
      have h := hashGo_badBlock_transfer false (blockGo none (slashGo false l)) hq
      rw [h3] at h
      exact absurd h (by decide)
  have h6 : '#' ∉ hashGo false (blockGo none (slashGo false l)) :=
    hashGo_no_hash false (blockGo none (slashGo false l))
  have h7 : pairIn '/' '/'
      (collapseGo false (hashGo false (blockGo none (slashGo false l)))) = false := by
    cases hq : pairIn '/' '/'
        (collapseGo false (hashGo false (blockGo none (slashGo false l))))
    · rfl
    · exfalso
      have h := collapseGo_pair_transfer (by decide) (by decide) false
        (hashGo false (blockGo none (slashGo false l))) hq
      rw [h4] at h
      exact absurd h (by decide)
  have h8 : badBlock
      (collapseGo false (hashGo false (blockGo none (slashGo false l)))) = false := by
    cases hq : badBlock
        (collapseGo false (hashGo false (blockGo none (slashGo false l))))
    · rfl
    · exfalso
      have h := collapseGo_badBlock_transfer false
        (hashGo false (blockGo none (slashGo false l))) hq
      rw [h5] at h
      exact absurd h (by decide)
  have h9 : '#' ∉ collapseGo false (hashGo false (blockGo none (slashGo false l))) := by
    intro hmem
    rcases collapseGo_mem false (hashGo false (blockGo none (slashGo false l))) '#'
        hmem with hc | ⟨-, hm⟩
    · exact absurd hc (by decide)
    · exact h6 hm
  have h10 : ∀ c ∈ collapseGo false (hashGo false (blockGo none (slashGo false l))),
      isJsWs c = true → c = ' ' := by
    intro c hmem hws
    rcases collapseGo_mem false (hashGo false (blockGo none (slashGo false l))) c
        hmem with hc | ⟨hnw, -⟩
    · exact hc
    · rw [hws] at hnw
      exact absurd hnw (by decide)
  have h11 : pairIn ' ' ' '
      (collapseGo false (hashGo false (blockGo none (slashGo false l)))) = false :=
    collapseGo_no_double_space false (hashGo false (blockGo none (slashGo false l)))
  have h12 : pairIn '/' '/'
      ((collapseGo false (hashGo false (blockGo none
        (slashGo false l)))).map asciiToLower) = false := by
    cases hq : pairIn '/' '/'
        ((collapseGo false (hashGo false (blockGo none
          (slashGo false l)))).map asciiToLower)
    · rfl
    · exfalso
      have h := map_lower_pair_transfer (by decide) (by decide) _ hq
      rw [h7] at h
      exact absurd h (by decide)
  have h13 : badBlock
      ((collapseGo false (hashGo false (blockGo none
        (slashGo false l)))).map asciiToLower) = false := by
    cases hq : badBlock
        ((collapseGo false (hashGo false (blockGo none
          (slashGo false l)))).map asciiToLower)
    · rfl
    · exfalso
      have h := map_lower_badBlock_transfer _ hq
      rw [h8] at h
      exact absurd h (by decide)
  have h14 : '#' ∉ (collapseGo false (hashGo false (blockGo none
      (slashGo false l)))).map asciiToLower := by
    intro hmem
    rcases List.mem_map.mp hmem with ⟨d, hd, hde⟩
    have : d = '#' := asciiToLower_eq_special (Or.inl (by decide)) hde
    rw [this] at hd
    exact h9 hd
  have h15 : ∀ c ∈ (collapseGo false (hashGo false (blockGo none
      (slashGo false l)))).map asciiToLower, isJsWs c = true → c = ' ' := by
    intro c hmem hws
    rcases List.mem_map.mp hmem with ⟨d, hd, hde⟩
    rw [← hde] at hws
    rw [isJsWs_asciiToLower] at hws
    have hd' : d = ' ' := h10 d hd hws
    rw [← hde, hd']
    decide
  have h16 : pairIn ' ' ' '
      ((collapseGo false (hashGo false (blockGo none
        (slashGo false l)))).map asciiToLower) = false := by
    cases hq : pairIn ' ' ' '
        ((collapseGo false (hashGo false (blockGo none
          (slashGo false l)))).map asciiToLower)
    · rfl
    · exfalso
      have h := map_lower_pair_transfer (by decide) (by decide) _ hq
      rw [h11] at h
      exact absurd h (by decide)
  have h17 : ∀ c ∈ (collapseGo false (hashGo false (blockGo none
      (slashGo false l)))).map asciiToLower, asciiToLower c = c := by
    intro c hmem
    rcases List.mem_map.mp hmem with ⟨d, -, hde⟩
    rw [← hde]
    exact asciiToLower_idem d
  rw [hnorm]
  refine ⟨?_, ?_, ?_, ?_, ?_, ?_⟩
  · cases hq : pairIn '/' '/' (jsTrim ((collapseGo false (hashGo false (blockGo none
        (slashGo false l)))).map asciiToLower))
    · rfl
    · exfalso
      have h := pairIn_infix (jsTrim_part _) hq
      rw [h12] at h
      exact absurd h (by decide)
  · cases hq : badBlock (jsTrim ((collapseGo false (hashGo false (blockGo none
        (slashGo false l)))).map asciiToLower))
    · rfl
    · exfalso
      have h := badBlock_infix (jsTrim_part _) hq
      rw [h13] at h
      exact absurd h (by decide)
  · intro hmem
    exact h14 (jsTrim_mem hmem)
  · intro c hmem hws
    exact h15 c (jsTrim_mem hmem) hws
  · cases hq : pairIn ' ' ' ' (jsTrim ((collapseGo false (hashGo false (blockGo none
        (slashGo false l)))).map asciiToLower))
    · rfl
    · exfalso
      have h := pairIn_infix (jsTrim_part _) hq
      rw [h16] at h
      exact absurd h (by decide)
  · intro c hmem
    exact h17 c (jsTrim_mem hmem)

/-- `normalise` is idempotent: every stage is the identity on any
`normalise` output. -/
theorem normalise_idem (l : List Char) : normalise (normalise l) = normalise l := by
  obtain ⟨h1, h2, h3, h4, h5, h6⟩ := normalise_conditions l
  have e1 : slashGo false (normalise l) = normalise l := slashGo_id _ h1
  have e2 : blockGo none (normalise l) = normalise l := blockGo_id _ h2
  have e3 : hashGo false (normalise l) = normalise l := hashGo_id _ h3
  have e4 : collapseGo false (normalise l) = normalise l := collapseGo_id _ h4 h5
  have e5 : (normalise l).map asciiToLower = normalise l := map_lower_id h6
  have e6 : jsTrim (normalise l) = normalise l := by
    have h := jsTrim_idem ((collapseGo false (hashGo false (blockGo none
      (slashGo false l)))).map asciiToLower)
    exact h
  calc normalise (normalise l)
      = jsTrim ((collapseGo false (hashGo false (blockGo none
          (slashGo false (normalise l))))).map asciiToLower) := rfl
    _ = normalise l := by rw [e1, e2, e3, e4, e5]; exact e6

/-- **C9.** For every string `s`, `normalise (normalise s) = normalise s`;
and `fingerprint s = fingerprint (normalise s)` — the same fingerprint
set, the same content digest, and the same normalised length (for every
k-gram hash and digest function). -/
theorem c9_normalise_round_trip :
    (∀ s : List Char, normalise (normalise s) = normalise s)
    ∧ (∀ (hashF : List Char → ℕ) (sha : List Char → String) (s : List Char),
        fingerprint hashF sha s = fingerprint hashF sha (normalise s)) := by
  refine ⟨normalise_idem, ?_⟩
  intro hashF sha s
  simp only [fingerprint, normalise_idem]

end ContestMonitor
